import Mathlib

/-!
Verification of the verse-normalization core of BibleOrgSys (SwordResources.py).

Python strings are modelled as `List Char`; `lc` converts a Lean string
literal to that representation.  Python's `str.find`, `str.replace` (with and
without a count), slicing, and the hand-written index loops of
`replaceFixedPairs` are translated operation by operation.  Loops written as
`while True:` in the source have no termination guarantee in general, so they
take an explicit fuel argument; exhausting the fuel is reported by a dedicated
result constructor (`Py.fuelOut`) that is distinct from every genuine Python
exception, and all theorems either hold for every fuel or are conditional on
the loop having finished (`= .ok _`).
-/

namespace BOS

/-- Python string, modelled as a list of characters. -/
abbrev Str := List Char

/-- Convert a Lean string literal to the `List Char` model. -/
def lc (s : String) : Str := s.data

/-- Python exceptions that the modelled code can raise:
`indexErr` for `IndexError` (out-of-range subscript), `typeErr` for
`TypeError` (for example a call with the wrong number of arguments),
`haltNameErr` for the `NameError` raised by the bare undefined name `halt`
used in this code base as a crash-for-debugging idiom, and `assertionErr`
for a failing `assert` statement. -/
inductive PyErr where
  | indexErr
  | typeErr
  | haltNameErr
  | assertionErr
deriving DecidableEq, Repr

/-- Result of running a piece of modelled Python code: a normal value,
a raised exception, or fuel exhaustion of an unbounded source loop (an
artifact of the shallow embedding, never a behaviour of the source). -/
inductive Py (α : Type) where
  | ok : α → Py α
  | err : PyErr → Py α
  | fuelOut : Py α
deriving DecidableEq, Repr

/-- First index `j` with `i ≤ j < i + n` satisfying `p`, scanning upward. -/
def firstHit (p : Nat → Bool) : Nat → Nat → Option Nat
  | _, 0 => none
  | i, n + 1 => if p i then some i else firstHit p (i + 1) n

/-- Python `s.find(t, start)`: smallest index `i ≥ start` (and `i ≤ len s`)
where `t` occurs in `s`, if any. -/
def pyFind? (t s : Str) (start : Nat) : Option Nat :=
  firstHit (fun i => t.isPrefixOf (s.drop i)) start (s.length + 1 - start)

/-- Python `s.replace(t, r, 1)`: replace the leftmost occurrence of `t`
in `s` (if any) by `r`. -/
def pyReplaceFirst (t r s : Str) : Str :=
  match pyFind? t s 0 with
  | none => s
  | some i => s.take i ++ r ++ s.drop (i + t.length)

/-- Fueled worker for `pyReplaceAll`; each step consumes at least one
character of the remaining input, so `s.length + 1` fuel always suffices. -/
def pyReplaceAllF (t r : Str) : Nat → Str → Str
  | 0, s => s
  | fuel + 1, s =>
    match pyFind? t s 0 with
    | none => s
    | some i => s.take i ++ r ++ pyReplaceAllF t r fuel (s.drop (i + t.length))

/-- Python `s.replace(t, r)` for a non-empty pattern `t`: replace all
non-overlapping occurrences, scanning left to right.  (All patterns used by
the source are non-empty literals; the empty-pattern case is mapped to the
identity.) -/
def pyReplaceAll (t r s : Str) : Str :=
  match t with
  | [] => s
  | _ => pyReplaceAllF t r (s.length + 1) s

/-!
The Pair Reconciler `replaceFixedPairs` (SwordResources.py lines 95-137).

The bare-close repair contains this index scan over the buffer
(lines 126-131 of the source):

    insertIndex = 0
    while verseLine[insertIndex] == '\\':
        insertIndex += 1
        while insertIndex < len(verseLine)-1:
            if verseLine[insertIndex] == ' ': break
            insertIndex += 1

`scanInner` is the inner `while`, `scanOuter` the outer one; `scanOuter`
returns `none` exactly when `verseLine[insertIndex]` is evaluated with
`insertIndex ≥ len(verseLine)`, which in Python raises `IndexError`.
-/

/-- Inner scan (the inner `while` above): advance `i` to the first space
strictly below `len - 1`, or to `len - 1` if there is none (the loop exits by
its bound); when `i` is already at or past `len - 1` it is returned as is. -/
def scanInner (s : Str) (i : Nat) : Nat :=
  match firstHit (fun j => s.getD j 'x' == ' ') i (s.length - 1 - i) with
  | some j => j
  | none => if i < s.length - 1 then s.length - 1 else i

/-- Worker for `scanOuter`.  The gas only bounds the number of outer-loop
iterations; since every iteration strictly increases `i`, starting gas
`s.length + 1` can run out only once `i > s.length`, where Python's
`verseLine[insertIndex]` would raise `IndexError` anyway, so `none` on gas
exhaustion coincides with the `IndexError` answer. -/
def scanOuterAux (s : Str) : Nat → Nat → Option Nat
  | 0, _ => none
  | gas + 1, i =>
    if h : i < s.length then
      if s.get ⟨i, h⟩ = '\\' then scanOuterAux s gas (scanInner s (i + 1))
      else some i
    else none

/-- Outer scan: skip a leading run of backslash-started marker tokens;
`none` models the `IndexError` raised when the subscript walks off the end
of the buffer. -/
def scanOuter (s : Str) (i : Nat) : Option Nat :=
  scanOuterAux s (s.length + 1) i

/-- Open-token loop of `replaceFixedPairs` (source lines 110-120):

    ix = verseLine.find( openCode )
    while ix != -1:
        verseLine = verseLine.replace( openCode, newOpenCode, 1 )
        ixEnd = verseLine.find( closeCode, ix )
        if ixEnd == -1:
            verseLine = verseLine + newCloseCode
        else:
            verseLine = verseLine.replace( closeCode, newCloseCode, 1 )
        ix = verseLine.find( openCode, ix )

The `logging.error` call in the missing-close branch only logs. -/
def openLoop (o no c nc : Str) : Nat → Str → Option Nat → Py Str
  | _, s, none => .ok s
  | 0, _, some _ => .fuelOut
  | fuel + 1, s, some ix =>
    let s1 := pyReplaceFirst o no s
    let s2 := match pyFind? c s1 ix with
              | none => s1 ++ nc
              | some _ => pyReplaceFirst c nc s1
    openLoop o no c nc fuel s2 (pyFind? o s2 ix)

/-- One pair of the `for` loop of `replaceFixedPairs` (source lines 109-134):
the open-token loop followed by the bare-close repair, which replaces a
leftover close token and inserts `' ' + newOpenCode` at the position found
by the index scan. -/
def pairStep (fuel : Nat) (o no c nc : Str) (s : Str) : Py Str :=
  match openLoop o no c nc fuel s (pyFind? o s 0) with
  | .fuelOut => .fuelOut
  | .err e => .err e
  | .ok s1 =>
    match pyFind? c s1 0 with
    | none => .ok s1
    | some _ =>
      let s2 := pyReplaceFirst c nc s1
      match scanOuter s2 0 with
      | none => .err .indexErr
      | some i => .ok (s2.take i ++ (' ' :: no) ++ s2.drop i)

/-- The Pair Reconciler `replaceFixedPairs(replacementList, verseLine)`
(source lines 95-137): process the 4-tuples of the replacement list strictly
in order, threading the buffer through `pairStep`. -/
def replaceFixedPairs (fuel : Nat) : List (Str × Str × Str × Str) → Str → Py Str
  | [], s => .ok s
  | (o, no, c, nc) :: rest, s =>
    match pairStep fuel o no c nc s with
    | .ok s' => replaceFixedPairs fuel rest s'
    | r => r

/-- The divine-name pair definition used by the OSIS filter
(source line 732). -/
def divineNamePair : Str × Str × Str × Str :=
  (lc "<divineName>", lc "\\nd ", lc "</divineName>", lc "\\nd*")

/-!
Regular-expression helpers.  Each `re.search` of the source is modelled by a
hand-written matcher for that exact pattern.  A matcher `m : Str → Option α`
decides whether the pattern matches anchored at the start of the given
suffix of the subject and returns the engine's preferred match there — the
number of characters consumed together with any captured groups; `rxSearchL`
then finds the match at the leftmost position, which is `re.search`'s
behaviour.  A lazy quantifier chooses the smallest repetition count that
lets the rest of the pattern match: `lazyCls` first tries the continuation
directly (zero further repetitions) and only on failure consumes one more
class character, which is exactly that preference order.
-/

/-- Lazy star over a character class (regex `cls*?` followed by the rest of
the pattern, given as the continuation): smallest number of class characters
whose removal lets `cont` succeed; returns that count and `cont`'s answer. -/
def lazyCls {α : Type} (cls : Char → Bool) (cont : Str → Option α) : Str → Option (Nat × α)
  | [] =>
    match cont [] with
    | some a => some (0, a)
    | none => none
  | ch :: u' =>
    match cont (ch :: u') with
    | some a => some (0, a)
    | none =>
      if cls ch then (lazyCls cls cont u').map (fun ka => (ka.1 + 1, ka.2))
      else none

/-- Lazy plus over a character class (regex `cls+?` followed by the
continuation): like `lazyCls` but consuming at least one class character. -/
def lazyClsPlus {α : Type} (cls : Char → Bool) (cont : Str → Option α) : Str → Option (Nat × α)
  | [] => none
  | ch :: u' =>
    if cls ch then (lazyCls cls cont u').map (fun ka => (ka.1 + 1, ka.2))
    else none

/-- Leftmost match of the anchored matcher `m` in `u`: Python `re.search`.
Returns the position of the match and the matcher's answer there. -/
def rxSearchL {α : Type} (m : Str → Option α) : Str → Option (Nat × α)
  | [] =>
    match m [] with
    | some a => some (0, a)
    | none => none
  | ch :: u' =>
    match m (ch :: u') with
    | some a => some (0, a)
    | none => (rxSearchL m u').map (fun pa => (pa.1 + 1, pa.2))

/-- Matcher for a regex of shape `pre(cls…?)post` — an opening literal, a
lazily quantified character class (at least one repetition when `plus` is
true), and a closing literal; returns the consumed length and the group
text.  With `cls = notNL` and `plus = true` this is `pre(.+?)post`. -/
def lazyMidL (pre post : Str) (cls : Char → Bool) (plus : Bool) (u : Str) :
    Option (Nat × Str) :=
  if pre.isPrefixOf u then
    let v := u.drop pre.length
    let cont := fun w => if post.isPrefixOf w then some post.length else none
    match (if plus then lazyClsPlus cls cont v else lazyCls cls cont v) with
    | none => none
    | some (k, t) => some (pre.length + k + t, v.take k)
  else none

/-- Character class `[^/>]`. -/
def notSG (ch : Char) : Bool := ch ≠ '/' && ch ≠ '>'

/-- Character class `.` of a default-mode regex: anything but a newline. -/
def notNL (ch : Char) : Bool := ch ≠ '\n'

/-- Greedy `\d{1,cap}` at the very end of a pattern: the run of digits at the
start of `u`, capped at `cap` (no backtracking is needed since nothing
follows). -/
def digTake (cap : Nat) (u : Str) : Nat :=
  ((u.take cap).takeWhile Char.isDigit).length

/-- Python whitespace as used by `str.strip` (ASCII part). -/
def isPySpace (ch : Char) : Bool :=
  ch = ' ' || ch = '\t' || ch = '\n' || ch = '\r' || ch = '\x0b' || ch = '\x0c'

/-- Python `s.strip()`. -/
def pyStrip (s : Str) : Str :=
  ((s.dropWhile isPySpace).reverse.dropWhile isPySpace).reverse

/-- Fueled worker for `pyCount`. -/
def pyCountF (t : Str) : Nat → Str → Nat
  | 0, _ => 0
  | fuel + 1, s =>
    match pyFind? t s 0 with
    | none => 0
    | some i => 1 + pyCountF t fuel (s.drop (i + t.length))

/-- Python `s.count(t)` for non-empty `t`: number of non-overlapping
occurrences, scanning left to right. -/
def pyCount (t s : Str) : Nat :=
  match t with
  | [] => s.length + 1
  | _ => pyCountF t (s.length + 1) s

/-- Error-propagating sequencing for modelled Python code. -/
def pyBind {α β : Type} : Py α → (α → Py β) → Py β
  | .ok a, f => f a
  | .err e, _ => .err e
  | .fuelOut, _ => .fuelOut

/-!
The generic-container pass of `filterOSISVerseLine` (source lines 363-379):

    while True:
        match = re.search( '<div ([^/>]*?)type="([^/>]+?)"([^/>]*?)/?>', verseLine )
        if not match: break
        attributes, divType = match.group(1) + match.group(3), match.group(2)
        if divType == 'x-p': replacement = '\\NL**\\p\\NL**'
        elif divType == 'glossary': replacement = '\\NL**\\id GLO\\NL**'
        elif divType == 'book': replacement = ''
        elif divType == 'outline': replacement = '\\NL**\\iot '
        elif divType == 'paragraph': replacement = '\\NL**\\ip ' if C=='0' else '\\NL**\\p\\NL**'
        elif divType == 'majorSection': replacement = '\\NL**\\ms\\NL**'
        elif divType == 'section': replacement = '\\NL**\\s1 '
        elif divType in ( 'preface', 'titlePage', 'introduction', ): replacement = '\\NL**\\ip '
        elif divType in ( 'x-license', 'x-trademark', ): replacement = '\\NL**\\rem '
        else: print( 'Matched:', repr(match.group(0)) ); halt
        verseLine = verseLine[:match.start()] + replacement + verseLine[match.end():]

The `halt` in the final branch is an undefined name: reaching it raises
`NameError`, modelled as `.err .haltNameErr`.
-/

/-- Matcher for the regex tail `([^/>]*?)/?>` anchored at the start of `x`:
the lazy class run, then the greedy optional slash, then the closing
bracket; returns the consumed length. -/
def divTailL (x : Str) : Option Nat :=
  match lazyCls notSG (fun y =>
      if (lc "/>").isPrefixOf y then some 2
      else if (lc ">").isPrefixOf y then some 1
      else none) x with
  | none => none
  | some (k3, t) => some (k3 + t)

/-- Matcher for `([^/>]+?)"` followed by the tail `([^/>]*?)/?>`, anchored at
the start of the `type` value: returns the consumed length and the group. -/
def divG2L (w : Str) : Option (Nat × Str) :=
  match lazyClsPlus notSG (fun y =>
      if (lc "\"").isPrefixOf y then (divTailL (y.drop 1)).map (fun t => t + 1)
      else none) w with
  | none => none
  | some (k2, t) => some (k2 + t, w.take k2)

/-- Matcher for `<div ([^/>]*?)type="([^/>]+?)"([^/>]*?)/?>` anchored at the
start of `u`: returns the consumed length and the `type` group.  (Groups 1
and 3 are only used by debug prints in the source and are not returned.) -/
def divMatchL (u : Str) : Option (Nat × Str) :=
  if (lc "<div ").isPrefixOf u then
    match lazyCls notSG (fun v =>
        if (lc "type=\"").isPrefixOf v then
          (divG2L (v.drop 6)).map (fun tg => (tg.1 + 6, tg.2))
        else none) (u.drop 5) with
    | none => none
    | some (k1, (t, g)) => some (5 + k1 + t, g)
  else none

/-- The enumeration of known `div` type values and their replacements; `none`
is the `halt` branch. -/
def divReplacement (C ty : Str) : Option Str :=
  if ty = lc "x-p" then some (lc "\\NL**\\p\\NL**")
  else if ty = lc "glossary" then some (lc "\\NL**\\id GLO\\NL**")
  else if ty = lc "book" then some []
  else if ty = lc "outline" then some (lc "\\NL**\\iot ")
  else if ty = lc "paragraph" then
    some (if C = lc "0" then lc "\\NL**\\ip " else lc "\\NL**\\p\\NL**")
  else if ty = lc "majorSection" then some (lc "\\NL**\\ms\\NL**")
  else if ty = lc "section" then some (lc "\\NL**\\s1 ")
  else if ty = lc "preface" ∨ ty = lc "titlePage" ∨ ty = lc "introduction" then
    some (lc "\\NL**\\ip ")
  else if ty = lc "x-license" ∨ ty = lc "x-trademark" then some (lc "\\NL**\\rem ")
  else none

/-- The generic-container rewriting loop of `filterOSISVerseLine`
(source lines 363-379). -/
def osisDivPass (C : Str) : Nat → Str → Py Str
  | fuel, s =>
    match rxSearchL divMatchL s with
    | none => .ok s
    | some (p, n, ty) =>
      match divReplacement C ty with
      | none => .err .haltNameErr
      | some repl =>
        match fuel with
        | 0 => .fuelOut
        | f + 1 => osisDivPass C f (s.take p ++ repl ++ s.drop (p + n))

/-!
The word-attribute decoder `handleOSISWordAttributes` of
`filterOSISVerseLine` (source lines 163-238).  For `j` in
`range(count('="'))` it searches, in order, for `savlm="(.+?)"`,
`lemma="(.+?)"`, `morph="(.+?)"`, `type="(.+?)"`, `subType="(.+?)"`,
`src="(.+?)"` and `wn="(\d+?)"` in the current attribute string, removing
each match.  The `savlm` and `lemma` values are mined by an inner loop for
`strong:([GH]\d{1,5})` codes (emitted as `\str …\str*`), the `morph` value
for `strongMorph:(TH\d{1,4})` codes (emitted as `\morph …\morph*`), and the
`type` value is asserted to start with `x-split`.  Afterwards (lines
233-235):

    if attributeString.strip():
        print( 'Unhandled word attributes', repr(attributeString) )
        if BibleOrgSysGlobals.debugFlag: halt

so non-blank residue is only printed unless the global debug flag is set,
in which case the undefined name `halt` raises `NameError`.
-/

/-- Matcher for `savlm="(.+?)"`. -/
def savlmM : Str → Option (Nat × Str) := lazyMidL (lc "savlm=\"") (lc "\"") notNL true

/-- Matcher for `lemma="(.+?)"`. -/
def lemmaM : Str → Option (Nat × Str) := lazyMidL (lc "lemma=\"") (lc "\"") notNL true

/-- Matcher for `morph="(.+?)"`. -/
def morphM : Str → Option (Nat × Str) := lazyMidL (lc "morph=\"") (lc "\"") notNL true

/-- Matcher for `type="(.+?)"`. -/
def typeM : Str → Option (Nat × Str) := lazyMidL (lc "type=\"") (lc "\"") notNL true

/-- Matcher for `subType="(.+?)"`. -/
def subTypeM : Str → Option (Nat × Str) := lazyMidL (lc "subType=\"") (lc "\"") notNL true

/-- Matcher for `src="(.+?)"`. -/
def srcM : Str → Option (Nat × Str) := lazyMidL (lc "src=\"") (lc "\"") notNL true

/-- Matcher for `wn="(\d+?)"`. -/
def wnM : Str → Option (Nat × Str) := lazyMidL (lc "wn=\"") (lc "\"") Char.isDigit true

/-- Matcher for `strong:([GH]\d{1,5})`: the literal, one of `G`/`H`, then a
greedy run of one to five digits ending the pattern. -/
def strongMatchL (u : Str) : Option (Nat × Str) :=
  if (lc "strong:").isPrefixOf u then
    match u.drop 7 with
    | [] => none
    | gh :: v' =>
      if gh = 'G' ∨ gh = 'H' then
        let d := digTake 5 v'
        if d = 0 then none else some (8 + d, gh :: v'.take d)
      else none
  else none

/-- Matcher for `strongMorph:(TH\d{1,4})`. -/
def strongMorphMatchL (u : Str) : Option (Nat × Str) :=
  if (lc "strongMorph:").isPrefixOf u then
    let v := u.drop 12
    if (lc "TH").isPrefixOf v then
      let d := digTake 4 (v.drop 2)
      if d = 0 then none else some (14 + d, lc "TH" ++ (v.drop 2).take d)
    else none
  else none

/-- Inner `while True` loop mining a `savlm`/`lemma` value for Strong's
numbers: each found code is appended to the replacement result as
`\str …\str*` and removed from the value. -/
def strongLoop : Nat → Str → Str → Py Str
  | fuel, acc, sv =>
    match rxSearchL strongMatchL sv with
    | none => .ok acc
    | some (p, n, grp) =>
      match fuel with
      | 0 => .fuelOut
      | f + 1 =>
        strongLoop f (acc ++ lc "\\str " ++ grp ++ lc "\\str*")
          (sv.take p ++ sv.drop (p + n))

/-- Inner `while True` loop mining a `morph` value for `strongMorph` codes,
emitted as `\morph …\morph*`. -/
def morphLoop : Nat → Str → Str → Py Str
  | fuel, acc, sv =>
    match rxSearchL strongMorphMatchL sv with
    | none => .ok acc
    | some (p, n, grp) =>
      match fuel with
      | 0 => .fuelOut
      | f + 1 =>
        morphLoop f (acc ++ lc "\\morph " ++ grp ++ lc "\\morph*")
          (sv.take p ++ sv.drop (p + n))

/-- One iteration of the `for j in range(0, attributeCount)` loop: the seven
attribute kinds are searched and removed in source order; state is the pair
(replacement result so far, remaining attribute string). -/
def wordAttrStep (fuel : Nat) (res0 attrs0 : Str) : Py (Str × Str) :=
  pyBind (match rxSearchL savlmM attrs0 with
    | none => .ok (res0, attrs0)
    | some (p, n, grp) =>
      pyBind (strongLoop fuel res0 grp) fun res' =>
        .ok (res', attrs0.take p ++ attrs0.drop (p + n))) fun st1 =>
  pyBind (match rxSearchL lemmaM st1.2 with
    | none => .ok st1
    | some (p, n, grp) =>
      pyBind (strongLoop fuel st1.1 grp) fun res' =>
        .ok (res', st1.2.take p ++ st1.2.drop (p + n))) fun st2 =>
  pyBind (match rxSearchL morphM st2.2 with
    | none => .ok st2
    | some (p, n, grp) =>
      pyBind (morphLoop fuel st2.1 grp) fun res' =>
        .ok (res', st2.2.take p ++ st2.2.drop (p + n))) fun st3 =>
  pyBind (match rxSearchL typeM st3.2 with
    | none => .ok st3
    | some (p, n, grp) =>
      if (lc "x-split").isPrefixOf grp then
        .ok (st3.1, st3.2.take p ++ st3.2.drop (p + n))
      else .err .assertionErr) fun st4 =>
  let st5 := match rxSearchL subTypeM st4.2 with
    | none => st4
    | some (p, n, _) => (st4.1, st4.2.take p ++ st4.2.drop (p + n))
  let st6 := match rxSearchL srcM st5.2 with
    | none => st5
    | some (p, n, _) => (st5.1, st5.2.take p ++ st5.2.drop (p + n))
  let st7 := match rxSearchL wnM st6.2 with
    | none => st6
    | some (p, n, _) => (st6.1, st6.2.take p ++ st6.2.drop (p + n))
  .ok st7

/-- The `for j in range(0, attributeCount)` loop itself. -/
def wordAttrLoop (fuel : Nat) : Nat → Str → Str → Py (Str × Str)
  | 0, res, attrs => .ok (res, attrs)
  | j + 1, res, attrs =>
    pyBind (wordAttrStep fuel res attrs) fun st => wordAttrLoop fuel j st.1 st.2

/-- The word-attribute decoder `handleOSISWordAttributes(attributeString)`
(source lines 163-238); `debugFlag` is the module-level
`BibleOrgSysGlobals.debugFlag`. -/
def handleOSISWordAttributes (debugFlag : Bool) (fuel : Nat)
    (attributeString : Str) : Py Str :=
  pyBind (wordAttrLoop fuel (pyCount (lc "=\"") attributeString) [] attributeString)
    fun st =>
      if pyStrip st.2 ≠ [] then
        if debugFlag then .err .haltNameErr else .ok st.1
      else .ok st.1

/-!
The import entry points.  The Canonical Line Assembler
(`InternalBibleBook.addVerseSegments`) is not among the provided source
files; the claims about the importers (C5, C10) concern only whether and
with which arguments it is called, so a book is modelled as the append-only
list of `addVerseSegments` calls made on it.
-/

/-- A book, modelled as the list of `(V, verseLine, location)` argument
triples of the `addVerseSegments` calls made on it, in call order. -/
abbrev Book := List (Str × Str × Str)

/-- Record a `thisBook.addVerseSegments(V, verseLine, location)` call. -/
def addVerseSegments (book : Book) (V verseLine location : Str) : Book :=
  book ++ [(V, verseLine, location)]

/-- Embedding of `importOSISVerseLine` (source lines 749-775):

    verseLine = filterOSISVerseLine( osisVerseString, moduleName, BBB, C, V )
    location = '{} {} {}:{}'.format( moduleName, BBB, C, V )
    if verseLine or V != '0':
        thisBook.addVerseSegments( V, verseLine, location )

The OSIS filter itself appears as the function parameter `filterOSIS`
(claim C10 is an if-and-only-if about the filter's result, whatever it is);
`verseLine or V != '0'` uses Python string truthiness, i.e. the stored
condition is `verseLine ≠ "" ∨ V ≠ "0"`. -/
def importOSISVerseLine (filterOSIS : Str → Str) (book : Book)
    (V location : Str) (s : Str) : Book :=
  let verseLine := filterOSIS s
  if verseLine ≠ [] ∨ V ≠ lc "0" then addVerseSegments book V verseLine location
  else book

/-- Embedding of `importTHMLVerseLine` (source lines 1025-1046).  The body's
first statement is

    verseLine = importTHMLVerseLine( thmlVerseString, moduleName, BBB, C, V )

— a recursive call to itself with five arguments, although its signature
takes six (`thmlVerseString, thisBook, moduleName, BBB, C, V`).  Python
raises `TypeError` ("missing 1 required positional argument: 'V'") when
evaluating this call, before any filtering or storing can happen, so the
function can never return normally or reach `addVerseSegments`. -/
def importTHMLVerseLine (_book : Book) (_moduleName _BBB _C _V : Str) (_s : Str) :
    Py Book :=
  .err .typeErr

/-- The pattern `t` occurs in `s` at position `p`. -/
def occAt (t s : Str) (p : Nat) : Prop :=
  ∃ u v : Str, s = u ++ t ++ v ∧ u.length = p

/-!
Segment representation of a buffer, used to prove the no-markup-leak
invariant of the Pair Reconciler (claim C2).  A buffer that arose from
well-formed input is, at every point of the pair-processing loop, a
concatenation of markup-free characters and whole tokens drawn from the
token list `T`; a `Seg` is one such piece, and `flat` recovers the buffer.
-/

/-- One segment: a single markup-free character or the token with the given
index in the token list. -/
inductive Seg where
  | chr : Char → Seg
  | tok : Nat → Seg
deriving DecidableEq, Repr

/-- Recover the buffer from its segments. -/
def flat (T : List Str) : List Seg → Str
  | [] => []
  | .chr a :: L => a :: flat T L
  | .tok i :: L => T.getD i [] ++ flat T L

/-- All character segments are free of angle brackets, and all token indices
are in range. -/
def segValid (T : List Str) (L : List Seg) : Prop :=
  ∀ sg ∈ L, match sg with
    | .chr a => a ≠ '<' ∧ a ≠ '>'
    | .tok i => i < T.length

/-- Segments of a markup-free replacement string. -/
def cleanSegs (m : Str) : List Seg := m.map .chr

/-- A string is free of angle brackets. -/
def cleanStr (m : Str) : Prop := ∀ ch ∈ m, ch ≠ '<' ∧ ch ≠ '>'

/-- The open/close event sequence of one pair: `true` for each occurrence of
token `oi`, `false` for each occurrence of token `ci`, in order. -/
def events (oi ci : Nat) (L : List Seg) : List Bool :=
  L.filterMap fun sg => match sg with
    | .chr _ => none
    | .tok i => if i = oi then some true else if i = ci then some false else none

/-- Balanced event sequence: equally many opens and closes, and no prefix
with more closes than opens (same-token proper nesting). -/
def Bal (ev : List Bool) : Prop :=
  ev.count true = ev.count false ∧
    ∀ pre suf : List Bool, ev = pre ++ suf → pre.count false ≤ pre.count true

/-- Well-behaved token list: tokens are non-empty, start with `'<'`, contain
`'<'` only at the start and `'>'` only at the end (where every token ends),
none is a prefix of another, and there are no duplicates. -/
structure GoodT (T : List Str) : Prop where
  nonempty : ∀ t ∈ T, t ≠ []
  headLt : ∀ t ∈ T, t.head? = some '<'
  ltOnlyHead : ∀ t ∈ T, ∀ ch ∈ t.drop 1, ch ≠ '<'
  gtOnlyLast : ∀ t ∈ T, ∀ ch ∈ t.dropLast, ch ≠ '>'
  lastGt : ∀ t ∈ T, t.getLast? = some '>'
  prefixFree : ∀ t ∈ T, ∀ t' ∈ T, t.isPrefixOf t' = true → t = t'
  nodup : T.Nodup

/-- The open/close token indices mentioned by a list of index quadruples
`(openIdx, closeIdx, newOpen, newClose)`. -/
def quadIdx : List (Nat × Nat × Str × Str) → List Nat
  | [] => []
  | q :: rest => q.1 :: q.2.1 :: quadIdx rest

/-!
The THML dialect filter `filterTHMLVerseLine` (source lines 947-1023):
four regex-substitution `while` loops, two straight `str.replace`
substitutions, `replaceFixedPairs` over the THML pair table, and a final
leftover-bracket check (a debug-only `halt`).
-/

/-- Matcher for `<div class="title">(.+?)</div>` (source line 965). -/
def titleM : Str → Option (Nat × Str) :=
  lazyMidL (lc "<div class=\"title\">") (lc "</div>") notNL true

/-- Matcher for `<div class="sechead">(.+?)</div>` (source line 971). -/
def secheadM : Str → Option (Nat × Str) :=
  lazyMidL (lc "<div class=\"sechead\">") (lc "</div>") notNL true

/-- Matcher for `<WT(.+?)>` (source line 996). -/
def wtM : Str → Option (Nat × Str) :=
  lazyMidL (lc "<WT") (lc ">") notNL true

/-- Matcher for `<scripRef([^/>]+?)>(.+?)</scripRef>` (source line 983):
returns the consumed length, the attribute group and the contents group. -/
def scripRefM (u : Str) : Option (Nat × Str × Str) :=
  if (lc "<scripRef").isPrefixOf u then
    match lazyClsPlus notSG (fun w =>
        if (lc ">").isPrefixOf w then
          match lazyClsPlus notNL (fun y =>
              if (lc "</scripRef>").isPrefixOf y then some 11 else none)
              (w.drop 1) with
          | none => none
          | some (k2, t2) => some (1 + k2 + t2, (w.drop 1).take k2)
        else none) (u.drop 9) with
    | none => none
    | some (k1, t, contents) => some (9 + k1 + t, (u.drop 9).take k1, contents)
  else none

/-- `re.search` of `key(.+?)"` in an attribute string, returning the group or
`''` on failure (source lines 987-990 with `key` = `passage="` or
`version="`). -/
def attrSearch (key attrs : Str) : Str :=
  match rxSearchL (lazyMidL key (lc "\"") notNL true) attrs with
  | none => []
  | some (_, _, g) => g

/-- The scripRef replacement
`'\\x - \\xo {} \\xt {} {} \\x*'.format( contents, version, passage )`
(source line 992). -/
def scripRefRepl (ac : Str × Str) : Str :=
  lc "\\x - \\xo " ++ ac.2 ++ lc " \\xt " ++ attrSearch (lc "version=\"") ac.1
    ++ lc " " ++ attrSearch (lc "passage=\"") ac.1 ++ lc " \\x*"

/-- One of the `while True: match = re.search(...); if not match: break;
verseLine = verseLine[:match.start()] + replacement + verseLine[match.end():]`
loops of `filterTHMLVerseLine` (source lines 964-1000), fueled. -/
def rxPassLoop {α : Type} (m : Str → Option (Nat × α)) (repl : α → Str) :
    Nat → Str → Py Str
  | 0, _ => .fuelOut
  | fuel + 1, s =>
    match rxSearchL m s with
    | none => .ok s
    | some (p, n, a) => rxPassLoop m repl fuel (s.take p ++ repl a ++ s.drop (p + n))

/-- The THML fixed pair table (source lines 1008-1014). -/
def thmlTable : List (Str × Str × Str × Str) :=
  [ (lc "<font color=\"#ff0000\">", lc "\\wj ", lc "</font>", lc "\\wj*"),
    (lc "<small>", lc "\\sc ", lc "</small>", lc "\\sc*"),
    (lc "<note>", lc "\\f ", lc "</note>", lc "\\f*"),
    (lc "<scripRef>", lc "\\x ", lc "</scripRef>", lc "\\x*"),
    (lc "<i>", lc "\\it ", lc "</i>", lc "\\it*"),
    (lc "<sup>", lc "\\ord ", lc "</sup>", lc "\\ord*") ]

/-- `filterTHMLVerseLine` (source lines 947-1023).  The final leftover check
(line 1018-1020) only prints in a normal run; under the debug flags the bare
name `halt` raises `NameError`, modelled as `.err .haltNameErr`. -/
def filterTHMLVerseLine (debug : Bool) (fuel : Nat) (s : Str) : Py Str :=
  pyBind (rxPassLoop titleM (fun g => lc "\\mt " ++ g) fuel s) fun s1 =>
  pyBind (rxPassLoop secheadM (fun g => lc "\\s " ++ g) fuel s1) fun s2 =>
  pyBind (rxPassLoop scripRefM scripRefRepl fuel s2) fun s3 =>
  pyBind (rxPassLoop wtM (fun _ => []) fuel s3) fun s4 =>
  pyBind (replaceFixedPairs fuel thmlTable
      (pyReplaceAll (lc "<br/>") (lc "\\NL**")
        (pyReplaceAll (lc "<br />") (lc "\\NL**") s4))) fun s7 =>
  if ('<' ∈ s7 ∨ '>' ∈ s7) ∧ debug = true then .err .haltNameErr else .ok s7

/-- The open and close tokens of the THML pair table, in table order. -/
def thmlTokens : List Str :=
  [ lc "<font color=\"#ff0000\">", lc "</font>", lc "<small>", lc "</small>",
    lc "<note>", lc "</note>", lc "<scripRef>", lc "</scripRef>",
    lc "<i>", lc "</i>", lc "<sup>", lc "</sup>" ]

/-- The THML pair table as index quadruples over `thmlTokens`. -/
def thmlQuads : List (Nat × Nat × Str × Str) :=
  [ (0, 1, lc "\\wj ", lc "\\wj*"), (2, 3, lc "\\sc ", lc "\\sc*"),
    (4, 5, lc "\\f ", lc "\\f*"), (6, 7, lc "\\x ", lc "\\x*"),
    (8, 9, lc "\\it ", lc "\\it*"), (10, 11, lc "\\ord ", lc "\\ord*") ]

/-- Well-formed THML input built only from the dialect's fixed tag pairs:
some valid segment buffer over the table's tokens flattens to it, with
balanced opens and closes for every pair of the table. -/
def WFTHML (s : Str) : Prop :=
  ∃ L : List Seg, segValid thmlTokens L ∧ flat thmlTokens L = s ∧
    ∀ q ∈ thmlQuads, Bal (events q.1 q.2.1 L)

/-!
The GBF dialect filter `filterGBFVerseLine` (source lines 779-920).  The
footnote correlator (lines 799-870) scans for numbered footnote callers
`<RF>(\d{1,2}?)<Rf>` and callee blocks `<RF>(\d{1,2}?)\)? (.+?)<Rf>`,
maintaining a correlation map `contentsDict` so that a repeated caller id
reuses the stored content.  Python `assert` statements are modelled as
`.err .assertionErr` guards, `KeyError` on `contentsDict[caller]` as
`.err .indexErr`, and the undefined-name `halt` (and the use of the
possibly-undefined `callee`/`contents` variables at line 870) as
`.err .haltNameErr`.
-/

/-- Python `s.rstrip()`. -/
def pyRstrip (s : Str) : Str := (s.reverse.dropWhile isPySpace).reverse

/-- Association-list model of the Python dict `contentsDict`. -/
def dictFind? (k : Str) : List (Str × Str) → Option Str
  | [] => none
  | (k', v) :: rest => if k = k' then some v else dictFind? k rest

/-- `contentsDict[k] = v`. -/
def dictSet (k v : Str) : List (Str × Str) → List (Str × Str)
  | [] => [(k, v)]
  | (k', v') :: rest => if k = k' then (k, v) :: rest else (k', v') :: dictSet k v rest

/-- Anchored matcher for the footnote caller `<RF>(\d{1,2}?)<Rf>`
(source line 803): the lazy `{1,2}?` prefers one digit. -/
def rfCallerM (u : Str) : Option (Nat × Str) :=
  if (lc "<RF>").isPrefixOf u then
    match u.drop 4 with
    | [] => none
    | d1 :: v1 =>
      if d1.isDigit then
        if (lc "<Rf>").isPrefixOf v1 then some (9, [d1])
        else match v1 with
          | [] => none
          | d2 :: v2 =>
            if d2.isDigit then
              if (lc "<Rf>").isPrefixOf v2 then some (10, [d1, d2]) else none
            else none
      else none
  else none

/-- The part of the callee regex after the digit group:
`\)? (.+?)<Rf>` (the greedy `\)?` prefers the parenthesis); returns the
consumed length and the content group. -/
def rfTail (rest : Str) : Option (Nat × Str) :=
  match rest with
  | ')' :: r2 =>
    match r2 with
    | ' ' :: r3 =>
      match lazyClsPlus notNL (fun y =>
          if (lc "<Rf>").isPrefixOf y then some 4 else none) r3 with
      | none => none
      | some (k, t) => some (2 + k + t, r3.take k)
    | _ => none
  | ' ' :: r3 =>
    match lazyClsPlus notNL (fun y =>
        if (lc "<Rf>").isPrefixOf y then some 4 else none) r3 with
    | none => none
    | some (k, t) => some (1 + k + t, r3.take k)
  | _ => none

/-- Anchored matcher for the footnote callee `<RF>(\d{1,2}?)\)? (.+?)<Rf>`
(source line 806): consumed length, digit group, content group. -/
def rfCalleeM (u : Str) : Option (Nat × Str × Str) :=
  if (lc "<RF>").isPrefixOf u then
    match u.drop 4 with
    | [] => none
    | d1 :: v1 =>
      if d1.isDigit then
        match rfTail v1 with
        | some (n, g2) => some (4 + 1 + n, [d1], g2)
        | none =>
          match v1 with
          | [] => none
          | d2 :: v2 =>
            if d2.isDigit then
              match rfTail v2 with
              | some (n, g2) => some (4 + 2 + n, [d1, d2], g2)
              | none => none
            else none
      else none
  else none

/-- Anchored matcher for the unnumbered callee `<RF>([^\d].+?)<Rf>`
(source line 808). -/
def rfM3 (u : Str) : Option (Nat × Str) :=
  if (lc "<RF>").isPrefixOf u then
    match u.drop 4 with
    | [] => none
    | c0 :: r =>
      if c0.isDigit then none
      else
        match lazyClsPlus notNL (fun y =>
            if (lc "<Rf>").isPrefixOf y then some 4 else none) r with
        | none => none
        | some (k, t) => some (4 + 1 + k + t, c0 :: r.take k)
  else none

/-- Anchored matcher for `(\d{1,2})\) ` (source line 825): the greedy
`{1,2}` prefers two digits. -/
def m9M (u : Str) : Option (Nat × Str) :=
  match u with
  | [] => none
  | d1 :: rest =>
    if d1.isDigit then
      match rest with
      | [] => none
      | d2 :: rest2 =>
        if d2.isDigit then
          if (lc ") ").isPrefixOf rest2 then some (4, [d1, d2])
          else if (lc ") ").isPrefixOf rest then some (3, [d1]) else none
        else if (lc ") ").isPrefixOf rest then some (3, [d1]) else none
    else none

/-- Anchored matcher for `(\d{1,2})\) (.*?)(\d{1,2})\) ` (source line 824):
consumed length and the three groups. -/
def m8M (u : Str) : Option (Nat × Str × Str × Str) :=
  match m9M u with
  | none => none
  | some (n1, g1) =>
    match lazyCls notNL (fun y => m9M y) (u.drop n1) with
    | none => none
    | some (k, n3, g3) => some (n1 + k + n3, g1, (u.drop n1).take k, g3)

/-- The inner callee-splitting loop of the correlator (source lines
821-841), threading `contentsDict`, the shrinking `replacement2`, and the
iteration counter `j`. -/
def gbfInner : Nat → List (Str × Str) → Str → Nat →
    Py (List (Str × Str) × Str × Nat)
  | 0, _, _, _ => .fuelOut
  | fuel + 1, d, r2, j =>
    if r2 = [] then .ok (d, r2, j)
    else
      match rxSearchL m8M r2 with
      | some (p8, n8, g1, g2m, g3) =>
        match rxSearchL m9M r2 with
        | none => .err .assertionErr
        | some (_, _, g9) =>
          if g9 = g1 then
            gbfInner fuel (dictSet g9 g2m d) (r2.drop (p8 + n8 - 2 - g3.length))
              (j + 1)
          else .err .assertionErr
      | none =>
        match rxSearchL m9M r2 with
        | none => .ok (d, r2, j)
        | some (_, _, g9) =>
          gbfInner fuel (dictSet g9 (r2.drop (g9.length + 2)) d) [] (j + 1)

/-- The footnote-correlating loop of `filterGBFVerseLine` (source lines
800-870).  `varCC` models the Python variables `callee, contents` (used by
`lastCalled = callee, contents` at line 870, a `NameError` when still
undefined), `lastCalled` the variable of the same name. -/
def gbfFnLoop : Nat → Option (Str × Str) → Option (Str × Str) →
    List (Str × Str) → Str → Py Str
  | 0, _, _, _, _ => .fuelOut
  | fuel + 1, varCC, lastCalled, d, s =>
    match rxSearchL rfCallerM s with
    | none => .ok s
    | some (p1, n1, caller) =>
      match rxSearchL rfCalleeM s with
      | some (p2, n2, callee2, g2raw) =>
        match dictFind? caller d with
        | some stored =>
          match varCC with
          | none => .err .haltNameErr
          | some cc =>
            gbfFnLoop fuel varCC (some cc) d
              (s.take p1 ++ (lc "\\f + \\ft " ++ stored ++ lc "\\f*")
                ++ s.drop (p1 + n1))
        | none =>
          match gbfInner fuel d (callee2 ++ lc ") " ++ pyRstrip g2raw) 0 with
          | .fuelOut => .fuelOut
          | .err e => .err e
          | .ok (d1, r2f, j) =>
            match dictFind? caller
                (if j = 0 then dictSet callee2 (pyRstrip g2raw) d1 else d1) with
            | none => .err .indexErr
            | some stored =>
              if p1 < p2 ∧ p1 + n1 < p2 + n2 ∧ p1 + n1 < p2 then
                gbfFnLoop fuel (some (callee2, pyRstrip g2raw))
                  (some (callee2, pyRstrip g2raw))
                  (if j = 0 then dictSet callee2 (pyRstrip g2raw) d1 else d1)
                  (s.take p1 ++ (lc "\\f + \\ft " ++ stored ++ lc "\\f*")
                    ++ ((s.take p2).drop (p1 + n1))
                    ++ (if j = 0 then [] else r2f) ++ s.drop (p2 + n2))
              else .err .assertionErr
      | none =>
        match dictFind? caller d with
        | some stored =>
          if (lastCalled.isSome || (rxSearchL rfM3 s).isSome) = true then
            match varCC with
            | none => .err .haltNameErr
            | some cc =>
              gbfFnLoop fuel varCC (some cc) d
                (s.take p1 ++ (lc "\\f + \\ft " ++ stored ++ lc "\\f*")
                  ++ s.drop (p1 + n1))
          else .err .assertionErr
        | none =>
          if (lastCalled.isSome || (rxSearchL rfM3 s).isSome) = true then
            match rxSearchL rfM3 s with
            | some (p3, n3, g3raw) =>
              if caller = lc "1" then
                if (pyFind? (lc " 2) ") (pyRstrip g3raw) 0).isSome then
                  .err .haltNameErr
                else
                  match dictFind? caller (dictSet caller (pyRstrip g3raw) d) with
                  | none => .err .indexErr
                  | some stored =>
                    if p1 < p3 ∧ p1 + n1 < p3 + n3 ∧ p1 + n1 < p3 then
                      gbfFnLoop fuel (some (caller, pyRstrip g3raw))
                        (some (caller, pyRstrip g3raw))
                        (dictSet caller (pyRstrip g3raw) d)
                        (s.take p1 ++ (lc "\\f + \\ft " ++ stored ++ lc "\\f*")
                          ++ ((s.take p3).drop (p1 + n1)) ++ s.drop (p3 + n3))
                    else .err .assertionErr
              else .err .assertionErr
            | none => .err .haltNameErr
          else .err .assertionErr

/-- Matcher for `<RF>(.+?)<Rf>` (source line 872). -/
def rfAnyM : Str → Option (Nat × Str) :=
  lazyMidL (lc "<RF>") (lc "<Rf>") notNL true

/-- Matcher for `<WH0(\d{1,4})>` (source line 888). -/
def wh0M (u : Str) : Option (Nat × Str) :=
  if (lc "<WH0").isPrefixOf u then
    if digTake 4 (u.drop 4) = 0 then none
    else if (lc ">").isPrefixOf (u.drop (4 + digTake 4 (u.drop 4))) then
      some (4 + digTake 4 (u.drop 4) + 1, (u.drop 4).take (digTake 4 (u.drop 4)))
    else none
  else none

/-- Matcher for `<WG(\d{1,4})>` (source line 894). -/
def wgM (u : Str) : Option (Nat × Str) :=
  if (lc "<WG").isPrefixOf u then
    if digTake 4 (u.drop 3) = 0 then none
    else if (lc ">").isPrefixOf (u.drop (3 + digTake 4 (u.drop 3))) then
      some (3 + digTake 4 (u.drop 3) + 1, (u.drop 3).take (digTake 4 (u.drop 3)))
    else none
  else none

/-- The GBF fixed pair table (source lines 901-904). -/
def gbfTable : List (Str × Str × Str × Str) :=
  [ (lc "<FI>", lc "\\it ", lc "<Fi>", lc "\\it*"),
    (lc "<FO><FO>", lc "\\NL**\\d ", lc "<Fo><Fo>", lc "\\NL**"),
    (lc "<FO>", lc "\\em ", lc "<Fo>", lc "\\em*") ]

/-- `filterGBFVerseLine` (source lines 779-920): the ASV module fix, the
footnote correlator, the leftover-footnote / `<WT` / `<WH0` / `<WG` loops,
`replaceFixedPairs` over the GBF table, the straight substitutions, and the
final leftover-bracket check (a debug-only `halt`). -/
def filterGBFVerseLine (debug : Bool) (fuel : Nat) (moduleName : Str)
    (s : Str) : Py Str :=
  pyBind (gbfFnLoop fuel none none []
      (if moduleName = lc "ASV" then
        pyReplaceAll (lc "pit of the<RF>1<Rf> shearing")
          (lc "pit of the<RF>2<Rf> shearing") s
      else s)) fun s1 =>
  pyBind (rxPassLoop rfAnyM
      (fun g => lc "\\f + \\ft " ++ g ++ lc "\\f*") fuel s1) fun s2 =>
  pyBind (rxPassLoop wtM (fun _ => []) fuel s2) fun s3 =>
  pyBind (rxPassLoop wh0M
      (fun g => lc "\\str H" ++ g ++ lc " \\str*") fuel s3) fun s4 =>
  pyBind (rxPassLoop wgM
      (fun g => lc "\\str G" ++ g ++ lc " \\str*") fuel s4) fun s5 =>
  pyBind (replaceFixedPairs fuel gbfTable s5) fun s6 =>
  pyBind (.ok (pyReplaceAll (lc "\n") (lc "\\NL**")
      (pyReplaceAll (lc "<Fo>") (lc "\\NL**")
        (pyReplaceAll (lc "<CM>") (lc "\\NL**\\p\\NL**") s6)))) fun s9 =>
  if ('<' ∈ s9 ∨ '>' ∈ s9) ∧ debug = true then .err .haltNameErr else .ok s9

theorem isPrefixOf_mp {t u : Str} (h : t.isPrefixOf u = true) :
    ∃ v, t ++ v = u := by
  rw [ List.isPrefixOf_iff_prefix] at h
  exact h

theorem isPrefixOf_mpr {t u v : Str} (h : t ++ v = u) :
    t.isPrefixOf u = true := by
  rw [ List.isPrefixOf_iff_prefix]
  exact ⟨v, h⟩

theorem openLoop_none (o no c nc : Str) (fuel : Nat) (s : Str) :
    openLoop o no c nc fuel s none = .ok s := by
  cases fuel <;> rfl

theorem pairStep_seg_bare_close (fuel : Nat) :
    pairStep fuel (lc "<seg>") [] (lc "</seg>") [] (lc "</seg>") = .err .indexErr := by
  unfold pairStep
  have h : pyFind? (lc "<seg>") (lc "</seg>") 0 = none := by decide
  rw [h, openLoop_none]
  decide

/-- C6: `replaceFixedPairs` on `"<divineName>LORD</divineName>"` with the
divine-name pair definition returns exactly the configured open marker, then
`"LORD"`, then the configured close marker, with no leftover angle
brackets. -/
theorem claim_C6_pair_repair_forward :
    replaceFixedPairs 5 [divineNamePair] (lc "<divineName>LORD</divineName>")
        = .ok (lc "\\nd " ++ lc "LORD" ++ lc "\\nd*")
      ∧ '<' ∉ lc "\\nd LORD\\nd*" ∧ '>' ∉ lc "\\nd LORD\\nd*" := by
  refine ⟨by decide, by decide, by decide⟩

/-- C1, counterexample: on the input consisting only of the bare close token
`"</divineName>"` (which has no leading marker tokens), the repaired buffer is
`"\nd \nd *"`; the canonical open marker was not inserted at position zero —
neither `"\nd \nd*"` (open marker first, then close marker) nor
`" \nd \nd*"` (the same with the code's leading space) is produced, because
the insert scan skips over the backslash-led canonical close marker that the
repair itself just wrote at the start of the buffer. -/
theorem claim_C1_counterexample :
    replaceFixedPairs 5 [divineNamePair] (lc "</divineName>") = .ok (lc "\\nd \\nd *")
      ∧ lc "\\nd \\nd *" ≠ lc "\\nd " ++ lc "\\nd*"
      ∧ lc "\\nd \\nd *" ≠ lc " \\nd \\nd*" := by
  refine ⟨by decide, by decide, by decide⟩

/-- C1, amended: for a single pair definition and an input buffer that is
exactly the bare close token, if the open token does not occur in that buffer
and the canonical close marker is non-empty and does not begin with a
backslash, then the close token is replaced by the canonical close marker and
a space plus the canonical open marker is inserted at position zero.  (When
the canonical close marker does begin with a backslash — as for every
non-empty close marker in the source's tables — the insert scan instead skips
past the marker it just wrote, as the counterexample shows.) -/
theorem claim_C1_amended (o no c nc : Str) (ch : Char) (fuel : Nat)
    (hno : pyFind? o c 0 = none) (hch : nc.head? = some ch) (hbs : ch ≠ '\\') :
    replaceFixedPairs fuel [(o, no, c, nc)] c = .ok (' ' :: (no ++ nc)) := by
  have hself : pyFind? c c 0 = some 0 := by
    have : (fun i => c.isPrefixOf (c.drop i)) 0 = true := by
      simp [ List.isPrefixOf_iff_prefix]
    simp [pyFind?, firstHit, Nat.add_sub_cancel, this]
  have hrepl : pyReplaceFirst c nc c = nc := by
    simp [pyReplaceFirst, hself, List.drop_length]
  obtain ⟨nc', rfl⟩ : ∃ nc', nc = ch :: nc' := by
    cases nc with
    | nil => cases hch
    | cons a t =>
      refine ⟨t, ?_⟩
      injection hch with h
      rw [h]
  have hscan : scanOuter (ch :: nc') 0 = some 0 := by
    simp [scanOuter, scanOuterAux, List.get, hbs]
  have hps : pairStep fuel o no c (ch :: nc') c = .ok (' ' :: (no ++ ch :: nc')) := by
    unfold pairStep
    rw [hno, openLoop_none]
    simp only [hself, hrepl, hscan]
    simp
  show (match pairStep fuel o no c (ch :: nc') c with
    | .ok s' => replaceFixedPairs fuel [] s'
    | r => r) = .ok (' ' :: (no ++ ch :: nc'))
  rw [hps]
  rfl

/-- C1, witness for the amended theorem at a concrete pair definition whose
canonical close marker does not begin with a backslash. -/
theorem claim_C1_witness :
    replaceFixedPairs 1 [(lc "<i>", lc "\\it ", lc "</i>", lc "x*")] (lc "</i>")
      = .ok (' ' :: (lc "\\it " ++ lc "x*")) :=
  claim_C1_amended (lc "<i>") (lc "\\it ") (lc "</i>") (lc "x*") 'x' 1
    (by decide) (by decide) (by decide)

/-- C10: `importOSISVerseLine` stores the verse into the book — that is,
calls `addVerseSegments` with the filtered canonical line — if and only if
the filtered line is non-empty or the verse number `V` is not `'0'`. -/
theorem claim_C10_store_iff (f : Str → Str) (book : Book) (V location s : Str) :
    importOSISVerseLine f book V location s = addVerseSegments book V (f s) location
      ↔ (f s ≠ [] ∨ V ≠ lc "0") := by
  constructor
  · intro h
    by_cases hc : f s ≠ [] ∨ V ≠ lc "0"
    · exact hc
    · exfalso
      have hb : importOSISVerseLine f book V location s = book := by
        simp only [importOSISVerseLine, if_neg hc]
      rw [hb] at h
      have := congrArg List.length h
      simp [addVerseSegments] at this
  · intro h
    simp only [importOSISVerseLine, if_pos h]

/-- C5: contrary to the claim that `importTHMLVerseLine` filters the raw
verse text with `filterTHMLVerseLine` and hands the canonical text to
`addVerseSegments`, returning normally, every call raises `TypeError`
(the body calls itself with five of its six required arguments) and no
verse is ever stored. -/
theorem claim_C5_type_error (book : Book) (moduleName BBB C V s : Str) :
    importTHMLVerseLine book moduleName BBB C V s = .err .typeErr
      ∧ ∀ book' : Book, importTHMLVerseLine book moduleName BBB C V s ≠ .ok book' := by
  exact ⟨rfl, fun book' h => by cases h⟩

/-- C9: contrary to the claim that `replaceFixedPairs` never raises, the
`('<seg>','','</seg>','')` pair of the OSIS filter's table applied to the
input consisting only of `"</seg>"` empties the buffer when the bare close
token is replaced by the empty canonical close marker, and the insert scan
then evaluates `verseLine[0]` on the empty string, raising `IndexError`
(for every fuel, since the open-token loop runs no iterations here). -/
theorem claim_C9_index_error (fuel : Nat) :
    replaceFixedPairs fuel [(lc "<seg>", [], lc "</seg>", [])] (lc "</seg>")
      = .err .indexErr := by
  show (match pairStep fuel (lc "<seg>") [] (lc "</seg>") [] (lc "</seg>") with
    | .ok s' => replaceFixedPairs fuel [] s'
    | r => r) = .err .indexErr
  rw [pairStep_seg_bare_close fuel]

/-!
Generic lemmas about the suffix matchers, used to show that a pass leaves a
buffer without its trigger characters unchanged.
-/

theorem isPrefixOf_false_of_head_notMem (a : Char) (t v : Str) (h : a ∉ v) :
    (a :: t).isPrefixOf v = false := by
  cases v with
  | nil => rfl
  | cons b vs =>
    have hab : (a == b) = false := by
      have : a ≠ b := fun he => h (he ▸ List.mem_cons_self b vs)
      simp [this]
    simp [List.isPrefixOf, hab]

theorem rxSearchL_none_of {α : Type} (m : Str → Option α) (u : Str)
    (h : ∀ k, m (u.drop k) = none) : rxSearchL m u = none := by
  induction u with
  | nil =>
    have h0 := h 0
    rw [List.drop_zero] at h0
    simp [rxSearchL, h0]
  | cons a u' ih =>
    have h0 := h 0
    rw [List.drop_zero] at h0
    have ih' := ih (fun k => by
      have hk := h (k + 1)
      rwa [List.drop_succ_cons] at hk)
    simp [rxSearchL, h0, ih']

theorem divMatchL_none_of_clean (v : Str) (h : '<' ∉ v) : divMatchL v = none := by
  unfold divMatchL
  rw [show lc "<div " = '<' :: lc "div " from rfl,
    isPrefixOf_false_of_head_notMem '<' (lc "div ") v h]
  rfl

theorem rxSearchL_divMatch_none (v : Str) (h : '<' ∉ v) :
    rxSearchL divMatchL v = none :=
  rxSearchL_none_of divMatchL v fun k =>
    divMatchL_none_of_clean (v.drop k) (fun hc => h (List.drop_subset k v hc))

theorem rxSearchL_some_zero {α : Type} (m : Str → Option α) (u : Str) (x : α)
    (h : m u = some x) : rxSearchL m u = some (0, x) := by
  cases u with
  | nil => simp [rxSearchL, h]
  | cons a u' => simp [rxSearchL, h]

theorem osisDivPass_of_search_none (C : Str) (fuel : Nat) (s : Str)
    (h : rxSearchL divMatchL s = none) : osisDivPass C fuel s = .ok s := by
  unfold osisDivPass
  rw [h]

theorem osisDivPass_halt (C s : Str) (fuel p n : Nat) (ty : Str)
    (h : rxSearchL divMatchL s = some (p, n, ty)) (hr : divReplacement C ty = none) :
    osisDivPass C fuel s = .err .haltNameErr := by
  unfold osisDivPass
  simp only [h, hr]

theorem osisDivPass_step (C s : Str) (fuel p n : Nat) (ty repl : Str)
    (h : rxSearchL divMatchL s = some (p, n, ty)) (hr : divReplacement C ty = some repl) :
    osisDivPass C (fuel + 1) s = osisDivPass C fuel (s.take p ++ repl ++ s.drop (p + n)) := by
  conv_lhs => unfold osisDivPass
  simp only [h, hr]

theorem osisDivPass_of_clean (C : Str) (fuel : Nat) (s : Str) (h : '<' ∉ s) :
    osisDivPass C fuel s = .ok s :=
  osisDivPass_of_search_none C fuel s (rxSearchL_divMatch_none s h)

/-- C3, counterexample: on a verse fragment whose generic container carries
the out-of-enumeration type value `"bogus"`, the container pass of
`filterOSISVerseLine` does not return a diagnostic value at all — it raises
the `NameError` of the undefined name `halt` (after printing the matched
fragment), so the verse's conversion is aborted by an exception that the
filter does not catch. -/
theorem claim_C3_counterexample :
    osisDivPass (lc "1") 5 (lc "<div type=\"bogus\"/>") = .err .haltNameErr
      ∧ ∀ out : Str, osisDivPass (lc "1") 5 (lc "<div type=\"bogus\"/>") ≠ .ok out := by
  have h1 : osisDivPass (lc "1") 5 (lc "<div type=\"bogus\"/>") = .err .haltNameErr := by
    decide
  exact ⟨h1, fun out hout => by rw [h1] at hout; exact Py.noConfusion hout⟩

/-- C3, amended: for every chapter identity, every fuel and every
continuation of the verse text, a generic container with the unknown type
value `"bogus"` makes the container pass raise the `halt` `NameError`
(`.err .haltNameErr`) rather than return; the filter has no handler, so the
exception leaves `filterOSISVerseLine` and containment to this verse is up
to the callers. -/
theorem claim_C3_amended (C rest : Str) (fuel : Nat) :
    osisDivPass C fuel (lc "<div type=\"bogus\"/>" ++ rest) = .err .haltNameErr := by
  have hm : divMatchL (lc "<div type=\"bogus\"/>" ++ rest) = some (19, lc "bogus") := by
    simp [divMatchL, divG2L, divTailL, lazyCls, lazyClsPlus, lc, notSG]
  have hs : rxSearchL divMatchL (lc "<div type=\"bogus\"/>" ++ rest)
      = some (0, 19, lc "bogus") := rxSearchL_some_zero _ _ _ hm
  exact osisDivPass_halt C _ fuel 0 19 (lc "bogus") hs rfl

/-- C8: a generic container of type `"paragraph"` is rewritten to the
introduction-paragraph marker `\ip` exactly when the current chapter
identity `C` is `'0'`, and otherwise to the body-paragraph marker `\p`
surrounded by the internal line-break sentinels; the rest of the verse text
(free of further markup) is unaffected. -/
theorem claim_C8_paragraph_div (C rest : Str) (fuel : Nat) (hrest : '<' ∉ rest) :
    osisDivPass C (fuel + 1) (lc "<div type=\"paragraph\">" ++ rest)
      = .ok ((if C = lc "0" then lc "\\NL**\\ip " else lc "\\NL**\\p\\NL**") ++ rest) := by
  have hm : divMatchL (lc "<div type=\"paragraph\">" ++ rest)
      = some (22, lc "paragraph") := by
    simp [divMatchL, divG2L, divTailL, lazyCls, lazyClsPlus, lc, notSG]
  have hs : rxSearchL divMatchL (lc "<div type=\"paragraph\">" ++ rest)
      = some (0, 22, lc "paragraph") := rxSearchL_some_zero _ _ _ hm
  have hr : divReplacement C (lc "paragraph")
      = some (if C = lc "0" then lc "\\NL**\\ip " else lc "\\NL**\\p\\NL**") := rfl
  have hclean : '<' ∉ (if C = lc "0" then lc "\\NL**\\ip " else lc "\\NL**\\p\\NL**") ++ rest := by
    intro hmem
    rcases List.mem_append.mp hmem with hin | hin
    · by_cases hC : C = lc "0"
      · rw [if_pos hC] at hin
        exact absurd hin (by decide)
      · rw [if_neg hC] at hin
        exact absurd hin (by decide)
    · exact hrest hin
  have hsplice : (lc "<div type=\"paragraph\">" ++ rest).take 0
        ++ (if C = lc "0" then lc "\\NL**\\ip " else lc "\\NL**\\p\\NL**")
        ++ (lc "<div type=\"paragraph\">" ++ rest).drop (0 + 22)
      = (if C = lc "0" then lc "\\NL**\\ip " else lc "\\NL**\\p\\NL**") ++ rest := by
    rw [List.take_zero, List.nil_append, Nat.zero_add,
      List.drop_left' (show (lc "<div type=\"paragraph\">").length = 22 from rfl)]
  rw [osisDivPass_step C _ fuel 0 22 (lc "paragraph") _ hs hr, hsplice]
  exact osisDivPass_of_clean C fuel _ hclean

/-- C8, witness: at chapter `'0'` and chapter `'3'`, with the tail
`"hello"`. -/
theorem claim_C8_witness :
    osisDivPass (lc "0") 6 (lc "<div type=\"paragraph\">" ++ lc "hello")
        = .ok ((if lc "0" = lc "0" then lc "\\NL**\\ip " else lc "\\NL**\\p\\NL**") ++ lc "hello")
      ∧ osisDivPass (lc "3") 6 (lc "<div type=\"paragraph\">" ++ lc "hello")
        = .ok ((if lc "3" = lc "0" then lc "\\NL**\\ip " else lc "\\NL**\\p\\NL**") ++ lc "hello") :=
  ⟨claim_C8_paragraph_div (lc "0") (lc "hello") 5 (by decide),
   claim_C8_paragraph_div (lc "3") (lc "hello") 5 (by decide)⟩

/-- C7, counterexample: with the global debug flag clear (the normal run
configuration), an attribute string that is nothing but unrecognized residue
(`foo="bar"`) makes `handleOSISWordAttributes` print a warning and return
normally with the empty replacement — no error of any kind is raised, so the
verse's conversion is not aborted. -/
theorem claim_C7_counterexample :
    handleOSISWordAttributes false 5 (lc "foo=\"bar\"") = .ok []
      ∧ ∀ e : PyErr, handleOSISWordAttributes false 5 (lc "foo=\"bar\"") ≠ .err e := by
  have h1 : handleOSISWordAttributes false 5 (lc "foo=\"bar\"") = .ok [] := by decide
  exact ⟨h1, fun e he => by rw [h1] at he; exact Py.noConfusion he⟩

theorem wordAttrStep_no_match (fuel : Nat) (res attrs : Str)
    (h1 : rxSearchL savlmM attrs = none) (h2 : rxSearchL lemmaM attrs = none)
    (h3 : rxSearchL morphM attrs = none) (h4 : rxSearchL typeM attrs = none)
    (h5 : rxSearchL subTypeM attrs = none) (h6 : rxSearchL srcM attrs = none)
    (h7 : rxSearchL wnM attrs = none) :
    wordAttrStep fuel res attrs = .ok (res, attrs) := by
  unfold wordAttrStep
  simp only [h1, h2, h3, h4, h5, h6, h7, pyBind]

theorem wordAttrLoop_no_match (fuel : Nat) (n : Nat) (res attrs : Str)
    (h1 : rxSearchL savlmM attrs = none) (h2 : rxSearchL lemmaM attrs = none)
    (h3 : rxSearchL morphM attrs = none) (h4 : rxSearchL typeM attrs = none)
    (h5 : rxSearchL subTypeM attrs = none) (h6 : rxSearchL srcM attrs = none)
    (h7 : rxSearchL wnM attrs = none) :
    wordAttrLoop fuel n res attrs = .ok (res, attrs) := by
  induction n with
  | zero => rfl
  | succ n ih =>
    show pyBind (wordAttrStep fuel res attrs) _ = _
    rw [wordAttrStep_no_match fuel res attrs h1 h2 h3 h4 h5 h6 h7]
    exact ih

/-- C7, amended: when the attribute string matches none of the seven known
attribute kinds, `handleOSISWordAttributes` leaves it untouched; with the
global debug flag clear it then returns the (empty) extraction result
normally — non-blank residue is only printed, not raised — while with the
debug flag set and non-blank residue it crashes with the `halt` `NameError`
instead of returning a per-verse diagnostic. -/
theorem claim_C7_amended (fuel : Nat) (attrs : Str)
    (h1 : rxSearchL savlmM attrs = none) (h2 : rxSearchL lemmaM attrs = none)
    (h3 : rxSearchL morphM attrs = none) (h4 : rxSearchL typeM attrs = none)
    (h5 : rxSearchL subTypeM attrs = none) (h6 : rxSearchL srcM attrs = none)
    (h7 : rxSearchL wnM attrs = none) :
    handleOSISWordAttributes false fuel attrs = .ok []
      ∧ (pyStrip attrs ≠ [] → handleOSISWordAttributes true fuel attrs
          = .err .haltNameErr) := by
  have hloop := wordAttrLoop_no_match fuel (pyCount (lc "=\"") attrs) [] attrs
    h1 h2 h3 h4 h5 h6 h7
  constructor
  · show pyBind (wordAttrLoop fuel (pyCount (lc "=\"") attrs) [] attrs) _ = _
    rw [hloop]
    show (if pyStrip attrs ≠ [] then if false = true then Py.err .haltNameErr
        else Py.ok [] else Py.ok []) = Py.ok []
    by_cases hres : pyStrip attrs ≠ [] <;> simp [hres]
  · intro hres
    show pyBind (wordAttrLoop fuel (pyCount (lc "=\"") attrs) [] attrs) _ = _
    rw [hloop]
    show (if pyStrip attrs ≠ [] then if true = true then Py.err .haltNameErr
        else Py.ok [] else Py.ok []) = Py.err .haltNameErr
    simp [hres]

/-!
Infrastructure for reasoning about `pyFind?`: occurrences of a pattern and
the characterization of the leftmost one.
-/

theorem firstHit_some_of {p : Nat → Bool} {i m n : Nat}
    (hm : p m = true) (hlo : i ≤ m) (hhi : m < i + n)
    (hbelow : ∀ j, i ≤ j → j < m → p j = false) :
    firstHit p i n = some m := by
  induction n generalizing i with
  | zero => omega
  | succ n ih =>
    rw [firstHit]
    by_cases hpi : p i = true
    · rcases Nat.lt_or_ge i m with hlt | hge
      · rw [hbelow i (Nat.le_refl i) hlt] at hpi
        cases hpi
      · have : i = m := Nat.le_antisymm hlo hge
        rw [if_pos hpi, this]
    · rw [if_neg hpi]
      have him : i ≠ m := fun he => hpi (he ▸ hm)
      exact ih (by omega) (by omega) (fun j h1 h2 => hbelow j (by omega) h2)

theorem firstHit_none_of {p : Nat → Bool} {i n : Nat}
    (h : ∀ j, i ≤ j → j < i + n → p j = false) :
    firstHit p i n = none := by
  induction n generalizing i with
  | zero => rfl
  | succ n ih =>
    rw [firstHit, if_neg, ih]
    · intro j h1 h2
      exact h j (by omega) (by omega)
    · rw [h i (Nat.le_refl i) (by omega)]
      simp

theorem firstHit_some_inv {p : Nat → Bool} {i n m : Nat}
    (h : firstHit p i n = some m) :
    i ≤ m ∧ m < i + n ∧ p m = true ∧ ∀ j, i ≤ j → j < m → p j = false := by
  induction n generalizing i with
  | zero => cases h
  | succ n ih =>
    rw [firstHit] at h
    by_cases hpi : p i = true
    · rw [if_pos hpi] at h
      cases h
      exact ⟨Nat.le_refl m, by omega, hpi, fun j h1 h2 => by omega⟩
    · rw [if_neg hpi] at h
      obtain ⟨h1, h2, h3, h4⟩ := ih h
      refine ⟨by omega, by omega, h3, fun j hj1 hj2 => ?_⟩
      rcases Nat.eq_or_lt_of_le hj1 with he | hlt
      · rw [← he]
        exact Bool.not_eq_true _ ▸ (by simpa using hpi)
      · exact h4 j hlt hj2

theorem occAt_iff_pre {t s : Str} {p : Nat} :
    occAt t s p ↔ (p ≤ s.length ∧ t.isPrefixOf (s.drop p) = true) := by
  constructor
  · rintro ⟨u, v, rfl, rfl⟩
    constructor
    · simp
    · rw [List.append_assoc, List.drop_left, List.isPrefixOf_iff_prefix]
      exact ⟨v, rfl⟩
  · rintro ⟨hp, hpre⟩
    rw [ List.isPrefixOf_iff_prefix] at hpre
    obtain ⟨w, hw⟩ := hpre
    refine ⟨s.take p, w, ?_, List.length_take_of_le hp⟩
    conv_lhs => rw [← List.take_append_drop p s, ← hw]
    simp

theorem pyFind?_eq_some_inv {t s : Str} {start m : Nat}
    (h : pyFind? t s start = some m) :
    start ≤ m ∧ occAt t s m ∧ ∀ j, start ≤ j → j < m → ¬occAt t s j := by
  obtain ⟨h1, h2, h3, h4⟩ := firstHit_some_inv h
  refine ⟨h1, occAt_iff_pre.mpr ⟨by omega, h3⟩, fun j hj1 hj2 hocc => ?_⟩
  obtain ⟨hjl, hjp⟩ := occAt_iff_pre.mp hocc
  rw [h4 j hj1 hj2] at hjp
  cases hjp

theorem firstHit_none_inv {p : Nat → Bool} {i n : Nat}
    (h : firstHit p i n = none) : ∀ j, i ≤ j → j < i + n → p j = false := by
  induction n generalizing i with
  | zero => intro j h1 h2; omega
  | succ n ih =>
    rw [firstHit] at h
    by_cases hpi : p i = true
    · rw [if_pos hpi] at h
      cases h
    · rw [if_neg hpi] at h
      intro j h1 h2
      rcases Nat.eq_or_lt_of_le h1 with he | hlt
      · rw [← he]
        exact Bool.eq_false_iff.mpr hpi
      · exact ih h j hlt (by omega)

theorem pyFind?_eq_none_inv {t s : Str} {start : Nat}
    (h : pyFind? t s start = none) :
    ∀ j, start ≤ j → ¬occAt t s j := by
  intro j hj hocc
  obtain ⟨hjl, hjp⟩ := occAt_iff_pre.mp hocc
  rw [pyFind?] at h
  have hfalse := firstHit_none_inv h j hj (by omega)
  simp only at hfalse
  rw [hfalse] at hjp
  cases hjp

theorem pyFind?_eq_some_intro {t s : Str} {start m : Nat}
    (hm : occAt t s m) (hge : start ≤ m)
    (hmin : ∀ j, start ≤ j → j < m → ¬occAt t s j) :
    pyFind? t s start = some m := by
  obtain ⟨hml, hmp⟩ := occAt_iff_pre.mp hm
  rw [pyFind?]
  refine firstHit_some_of hmp hge (by omega) (fun j h1 h2 => ?_)
  by_contra hne
  have htrue : t.isPrefixOf (s.drop j) = true := Bool.not_eq_false _ ▸ hne
  exact hmin j h1 h2 (occAt_iff_pre.mpr ⟨by omega, htrue⟩)

theorem pyFind?_eq_none_intro {t s : Str} {start : Nat}
    (h : ∀ j, start ≤ j → ¬occAt t s j) :
    pyFind? t s start = none := by
  rw [pyFind?]
  refine firstHit_none_of (fun j h1 h2 => ?_)
  by_contra hne
  have htrue : t.isPrefixOf (s.drop j) = true := Bool.not_eq_false _ ▸ hne
  exact h j h1 (occAt_iff_pre.mpr ⟨by omega, htrue⟩)

/-- C7, witness: the pure-residue attribute string `foo="bar"`. -/
theorem claim_C7_witness :
    handleOSISWordAttributes false 5 (lc "foo=\"bar\"") = .ok []
      ∧ (pyStrip (lc "foo=\"bar\"") ≠ [] → handleOSISWordAttributes true 5 (lc "foo=\"bar\"")
          = .err .haltNameErr) :=
  claim_C7_amended 5 (lc "foo=\"bar\"") (by decide) (by decide) (by decide)
    (by decide) (by decide) (by decide) (by decide)

theorem flat_append (T : List Str) (A B : List Seg) :
    flat T (A ++ B) = flat T A ++ flat T B := by
  induction A with
  | nil => rfl
  | cons sg A ih =>
    cases sg with
    | chr a => simp [flat, ih]
    | tok i => simp [flat, ih]

theorem flat_cleanSegs (T : List Str) (m : Str) : flat T (cleanSegs m) = m := by
  induction m with
  | nil => rfl
  | cons a m ih => simp [cleanSegs, flat] at ih ⊢; exact ih

theorem events_append (oi ci : Nat) (A B : List Seg) :
    events oi ci (A ++ B) = events oi ci A ++ events oi ci B := by
  simp [events, List.filterMap_append]

theorem events_cleanSegs (oi ci : Nat) (m : Str) :
    events oi ci (cleanSegs m) = [] := by
  induction m with
  | nil => rfl
  | cons a m ih => simp [cleanSegs, events, List.filterMap] at ih ⊢

theorem events_tok_open (oi ci : Nat) (_ : oi ≠ ci) :
    events oi ci [.tok oi] = [true] := by
  simp [events]

theorem events_tok_close (oi ci : Nat) (h : oi ≠ ci) :
    events oi ci [.tok ci] = [false] := by
  simp [events, h.symm]

theorem events_tok_other (oi ci j : Nat) (h1 : j ≠ oi) (h2 : j ≠ ci) :
    events oi ci [.tok j] = [] := by
  simp [events, h1, h2]

theorem events_chr (oi ci : Nat) (a : Char) : events oi ci [.chr a] = [] := by
  simp [events]

theorem tok_mem_of_events_true {oi ci : Nat} {L : List Seg}
    (h : true ∈ events oi ci L) : Seg.tok oi ∈ L := by
  rw [events, List.mem_filterMap] at h
  obtain ⟨sg, hsg, hf⟩ := h
  cases sg with
  | chr a => simp at hf
  | tok i =>
    by_cases hio : i = oi
    · exact hio ▸ hsg
    · by_cases hic : i = ci
      · subst hic
        simp [hio] at hf
      · simp [hio, hic] at hf

theorem tok_mem_of_events_false {oi ci : Nat} {L : List Seg}
    (h : false ∈ events oi ci L) : Seg.tok ci ∈ L := by
  rw [events, List.mem_filterMap] at h
  obtain ⟨sg, hsg, hf⟩ := h
  cases sg with
  | chr a => simp at hf
  | tok i =>
    by_cases hio : i = oi
    · simp [hio] at hf
    · by_cases hic : i = ci
      · exact hic ▸ hsg
      · simp [hio, hic] at hf

theorem Bal_nil : Bal [] := ⟨rfl, fun pre _ h => by
  have : pre = [] := by
    cases pre with
    | nil => rfl
    | cons a l => cases h
  simp [this]⟩

theorem count_cons_simp (x a : Bool) (l : List Bool) :
    (a :: l).count x = l.count x + (if a = x then 1 else 0) := by
  simp [List.count_cons]

theorem Bal_append {a b : List Bool} (ha : Bal a) (hb : Bal b) : Bal (a ++ b) := by
  obtain ⟨hac, hap⟩ := ha
  obtain ⟨hbc, hbp⟩ := hb
  refine ⟨by simp [List.count_append, hac, hbc], fun pre suf he => ?_⟩
  rcases List.append_eq_append_iff.mp he with ⟨x, hx1, hx2⟩ | ⟨y, hy1, hy2⟩
  · subst hx1
    have hxx := hbp x suf hx2
    simp only [List.count_append]
    omega
  · exact hap pre y hy1

theorem Bal_wrap {a b : List Bool} (ha : Bal a) (hb : Bal b) :
    Bal (true :: a ++ false :: b) := by
  obtain ⟨hac, hap⟩ := ha
  obtain ⟨hbc, hbp⟩ := hb
  constructor
  · simp [List.cons_append, List.count_cons, List.count_append, hac, hbc]
    omega
  · intro pre suf he
    cases pre with
    | nil => simp
    | cons x p =>
      rw [List.cons_append] at he
      injection he with hx hp
      subst hx
      rcases List.append_eq_append_iff.mp hp with ⟨z, hz1, hz2⟩ | ⟨y, hy1, hy2⟩
      · subst hz1
        cases z with
        | nil =>
          simp [List.append_nil, List.count_cons, List.count_append]
          omega
        | cons w r =>
          rw [List.cons_append] at hz2
          injection hz2 with hw hr
          subst hw
          have hrb := hbp r suf hr
          simp [List.count_cons, List.count_append]
          omega
      · have hpp := hap p y hy1
        simp [List.count_cons, List.count_append]
        omega

theorem Bal_head_true {x : Bool} {ev : List Bool} (h : Bal (x :: ev)) : x = true := by
  obtain ⟨_, hp⟩ := h
  have := hp [x] ev rfl
  cases x
  · simp [List.count_cons] at this
  · rfl

theorem Bal_remove {evA evB : List Bool} (h : Bal (true :: evA ++ false :: evB))
    (hA : ∀ x ∈ evA, x = true) : Bal (evA ++ evB) := by
  obtain ⟨hc, hp⟩ := h
  have hAf : evA.count false = 0 := by
    rw [List.count_eq_zero]
    intro hmem
    cases hA false hmem
  constructor
  · simp [List.cons_append, List.count_cons, List.count_append] at hc ⊢
    omega
  · intro pre suf he
    rcases List.append_eq_append_iff.mp he with ⟨x, hx1, hx2⟩ | ⟨y, hy1, hy2⟩
    · subst hx1
      have hx := hp (true :: evA ++ false :: x) suf (by
        rw [List.cons_append, List.cons_append, hx2]
        simp)
      simp [List.cons_append, List.count_cons, List.count_append] at hx ⊢
      omega
    · have hpre : ∀ x ∈ pre, x = true := fun x hx =>
        hA x (hy1 ▸ List.mem_append_left y hx)
      have hpf : pre.count false = 0 := by
        rw [List.count_eq_zero]
        intro hmem
        cases hpre false hmem
      omega

theorem Bal_no_true_nil {ev : List Bool} (h : Bal ev) (ht : true ∉ ev) : ev = [] := by
  obtain ⟨hc, _⟩ := h
  have h1 : ev.count true = 0 := List.count_eq_zero.mpr ht
  have h2 : ev.count false = 0 := by omega
  rw [List.count_eq_zero] at h2
  cases ev with
  | nil => rfl
  | cons x l =>
    cases x
    · exact absurd (List.mem_cons_self _ _) h2
    · exact absurd (List.mem_cons_self _ _) ht

theorem exists_first_mem {α : Type} [DecidableEq α] {x : α} {l : List α}
    (h : x ∈ l) : ∃ A B, l = A ++ x :: B ∧ x ∉ A := by
  induction l with
  | nil => cases h
  | cons a l ih =>
    by_cases hax : a = x
    · exact ⟨[], l, by simp [hax], by simp⟩
    · rcases List.mem_cons.mp h with he | hm
      · exact absurd he.symm hax
      · obtain ⟨A, B, hAB, hnA⟩ := ih hm
        refine ⟨a :: A, B, by rw [hAB, List.cons_append], ?_⟩
        simp only [List.mem_cons, not_or]
        exact ⟨fun he => hax he.symm, hnA⟩

theorem Bal_cons_first_false {ev : List Bool} (h : Bal (true :: ev)) :
    ∃ A B, ev = A ++ false :: B ∧ ∀ x ∈ A, x = true := by
  obtain ⟨hc, _⟩ := h
  have hfmem : false ∈ ev := by
    by_contra hnf
    have h0 : ev.count false = 0 := List.count_eq_zero.mpr hnf
    simp [List.count_cons, h0] at hc
  obtain ⟨A, B, hAB, hnA⟩ := exists_first_mem hfmem
  exact ⟨A, B, hAB, fun x hx => by
    cases x
    · exact absurd hx hnA
    · rfl⟩

theorem getD_mem_of_lt {T : List Str} {i : Nat} (h : i < T.length) :
    T.getD i [] ∈ T := by
  rw [List.getD_eq_getElem _ _ h]
  exact List.getElem_mem h

/-- Occurrence alignment: in a buffer that is a concatenation of markup-free
characters and whole tokens, every occurrence of a token `t ∈ T` is exactly
one whole token segment — the decomposition of the buffer at the occurrence
lifts to a decomposition of the segment list. -/
theorem flat_aligned {T : List Str} (hg : GoodT T) :
    ∀ L : List Seg, segValid T L → ∀ t ∈ T, ∀ u v : Str,
      flat T L = u ++ t ++ v →
      ∃ L1 L2 i, L = L1 ++ .tok i :: L2 ∧ T.getD i [] = t ∧
        flat T L1 = u ∧ flat T L2 = v := by
  intro L
  induction L with
  | nil =>
    intro hv t ht u v he
    have hte : t = [] := by
      rcases List.append_eq_nil.mp (show u ++ t ++ v = [] from he.symm) with ⟨h1, _⟩
      exact (List.append_eq_nil.mp h1).2
    exact absurd hte (hg.nonempty t ht)
  | cons sg L' ih =>
    intro hv t ht u v he
    have hv' : segValid T L' := fun s hs => hv s (List.mem_cons_of_mem _ hs)
    obtain ⟨th, t', rfl⟩ : ∃ th t', t = th :: t' := by
      cases t with
      | nil => exact absurd rfl (hg.nonempty [] ht)
      | cons th t' => exact ⟨th, t', rfl⟩
    have hth : th = '<' := by
      have := hg.headLt _ ht
      simpa using this
    cases sg with
    | chr a =>
      obtain ⟨ha1, _⟩ := hv (.chr a) (List.mem_cons_self _ _)
      cases u with
      | nil =>
        rw [show flat T (.chr a :: L') = a :: flat T L' from rfl] at he
        rw [List.nil_append, List.cons_append] at he
        injection he with h1 _
        exact absurd (h1.trans hth) ha1
      | cons b u' =>
        rw [show flat T (.chr a :: L') = a :: flat T L' from rfl] at he
        rw [List.cons_append, List.cons_append] at he
        injection he with h1 h2
        obtain ⟨L1, L2, i, hL, hti, hf1, hf2⟩ := ih hv' _ ht u' v h2
        refine ⟨.chr a :: L1, L2, i, by rw [hL]; rfl, hti, ?_, hf2⟩
        rw [show flat T (.chr a :: L1) = a :: flat T L1 from rfl, hf1, h1]
    | tok k =>
      have hk : k < T.length := hv (.tok k) (List.mem_cons_self _ _)
      have htkmem : T.getD k [] ∈ T := getD_mem_of_lt hk
      rw [show flat T (.tok k :: L') = T.getD k [] ++ flat T L' from rfl] at he
      have hpre1 : T.getD k [] <+: u ++ (th :: t') ++ v :=
        he ▸ List.prefix_append _ (flat T L')
      have hpre2 : u <+: u ++ (th :: t') ++ v := by
        rw [List.append_assoc]
        exact List.prefix_append u _
      rcases le_or_lt (T.getD k []).length u.length with hle | hlt
      · have htku : T.getD k [] <+: u := by
          rcases List.prefix_or_prefix_of_prefix hpre1 hpre2 with h | h
          · exact h
          · rw [List.IsPrefix.eq_of_length_le h hle]
        obtain ⟨u'', rfl⟩ := htku
        have h2 : flat T L' = u'' ++ (th :: t') ++ v :=
          List.append_cancel_left (show T.getD k [] ++ flat T L'
            = T.getD k [] ++ (u'' ++ (th :: t') ++ v) by rw [he]; simp [List.append_assoc])
        obtain ⟨L1, L2, i, hL, hti, hf1, hf2⟩ := ih hv' _ ht u'' v h2
        refine ⟨.tok k :: L1, L2, i, by rw [hL]; rfl, hti, ?_, hf2⟩
        rw [show flat T (.tok k :: L1) = T.getD k [] ++ flat T L1 from rfl, hf1]
      · have huk : u <+: T.getD k [] := by
          rcases List.prefix_or_prefix_of_prefix hpre2 hpre1 with h | h
          · exact h
          · exact absurd (List.IsPrefix.length_le h) (by omega)
        obtain ⟨w, hw⟩ := huk
        have hwne : w ≠ [] := by
          intro hnil
          rw [hnil, List.append_nil] at hw
          rw [← hw] at hlt
          omega
        obtain ⟨wh, w', rfl⟩ : ∃ wh w', w = wh :: w' := by
          cases w with
          | nil => exact absurd rfl hwne
          | cons wh w' => exact ⟨wh, w', rfl⟩
        have h2 : (wh :: w') ++ flat T L' = (th :: t') ++ v :=
          List.append_cancel_left (show u ++ ((wh :: w') ++ flat T L')
            = u ++ ((th :: t') ++ v) by rw [← List.append_assoc, hw, he, List.append_assoc])
        have hwh : wh = th := by
          have hh := congrArg List.head? h2
          simpa using hh
      -- the occurrence starts inside the token: only possible at its head
        cases u with
        | cons b u' =>
          exfalso
          have hmem : wh ∈ (T.getD k []).drop 1 := by
            rw [← hw]
            simp
          exact hg.ltOnlyHead _ htkmem wh hmem (hwh.trans hth)
        | nil =>
          rw [List.nil_append] at hw
          rw [List.nil_append] at he
          rcases le_or_lt (th :: t').length (T.getD k []).length with hle2 | hlt2
          · -- the token found is exactly t, by prefix-freeness
            have hpt : (th :: t') <+: T.getD k [] := by
              have hp1 : (th :: t') <+: (th :: t') ++ v := List.prefix_append _ _
              have hp2 : T.getD k [] <+: (th :: t') ++ v :=
                he ▸ List.prefix_append _ _
              rcases List.prefix_or_prefix_of_prefix hp1 hp2 with h | h
              · exact h
              · rw [List.IsPrefix.eq_of_length_le h hle2]
            have heq : (th :: t') = T.getD k [] := by
              apply hg.prefixFree _ ht _ htkmem
              rw [ List.isPrefixOf_iff_prefix]
              exact hpt
            refine ⟨[], L', k, rfl, heq.symm, rfl, ?_⟩
            exact List.append_cancel_left (show T.getD k [] ++ flat T L'
              = T.getD k [] ++ v by rw [he, heq])
          · exfalso
            have hkt : T.getD k [] <+: th :: t' := by
              have hp1 : (th :: t') <+: (th :: t') ++ v := List.prefix_append _ _
              have hp2 : T.getD k [] <+: (th :: t') ++ v :=
                he ▸ List.prefix_append _ _
              rcases List.prefix_or_prefix_of_prefix hp2 hp1 with h | h
              · exact h
              · exact absurd (List.IsPrefix.length_le h) (by omega)
            obtain ⟨w2, hw2⟩ := hkt
            have hw2ne : w2 ≠ [] := by
              intro hnil
              rw [hnil, List.append_nil] at hw2
              rw [← hw2] at hlt2
              omega
            have htkne : T.getD k [] ≠ [] := hg.nonempty _ htkmem
            have hlast : (T.getD k []).dropLast ++ ['>'] = T.getD k [] := by
              have h1 := List.dropLast_append_getLast htkne
              have h2 : (T.getD k []).getLast htkne = '>' := by
                have := hg.lastGt _ htkmem
                rw [List.getLast?_eq_getLast _ htkne] at this
                simpa using this
              rw [h2] at h1
              exact h1
            have hgtmem : '>' ∈ (th :: t').dropLast := by
              rw [← hw2, ← hlast, List.append_assoc,
                List.dropLast_append_of_ne_nil _ (by simp [hw2ne])]
              simp [List.dropLast_cons_of_ne_nil hw2ne]
            exact hg.gtOnlyLast _ ht '>' hgtmem rfl

theorem occAt_of_split (T : List Str) (L1 L2 : List Seg) (i : Nat) :
    occAt (T.getD i []) (flat T (L1 ++ .tok i :: L2)) (flat T L1).length := by
  refine ⟨flat T L1, flat T L2, ?_, rfl⟩
  rw [flat_append, List.append_assoc]
  rfl

theorem split_pos_ge {T : List Str} {L P R : List Seg} {k : Nat}
    (hL : L = P ++ R) (hnP : Seg.tok k ∉ P) {X Y : List Seg}
    (hX : L = X ++ .tok k :: Y) : (flat T P).length ≤ (flat T X).length := by
  have hPpre : P <+: L := hL ▸ ⟨R, rfl⟩
  have hXpre : X <+: L := hX ▸ ⟨.tok k :: Y, rfl⟩
  rcases List.prefix_or_prefix_of_prefix hPpre hXpre with h | h
  · obtain ⟨W, hW⟩ := h
    rw [← hW, flat_append]
    simp
  · obtain ⟨Z, hZ⟩ := h
    cases Z with
    | nil =>
      rw [List.append_nil] at hZ
      rw [hZ]
    | cons z Z' =>
      exfalso
      have hz : z = Seg.tok k := by
        have h1 : X ++ (z :: (Z' ++ R)) = X ++ (Seg.tok k :: Y) := by
          have : (X ++ z :: Z') ++ R = X ++ Seg.tok k :: Y := by
            rw [hZ, ← hL, hX]
          simpa [List.append_assoc] using this
        have h2 := List.append_cancel_left h1
        injection h2 with hz _
      apply hnP
      rw [← hZ]
      exact List.mem_append_right X (hz ▸ List.mem_cons_self z Z')

theorem tok_index_eq {T : List Str} (hg : GoodT T) {i k : Nat}
    (hi : i < T.length) (hk : k < T.length)
    (he : T.getD i [] = T.getD k []) : i = k := by
  have h1 : T.get ⟨i, hi⟩ = T.get ⟨k, hk⟩ := by
    have e1 : T.getD i [] = T.get ⟨i, hi⟩ := by
      rw [List.getD_eq_getElem T [] hi]
      rfl
    have e2 : T.getD k [] = T.get ⟨k, hk⟩ := by
      rw [List.getD_eq_getElem T [] hk]
      rfl
    rw [← e1, ← e2]
    exact he
  have h2 := (List.Nodup.get_inj_iff hg.nodup).mp h1
  exact congrArg Fin.val h2

/-- Position lower bound: if all `tok k` segments lie beyond the prefix `P`
of the segment list, then every occurrence of the `k`-th token in the buffer
starts at or beyond the flattened length of `P`. -/
theorem occAt_pos_ge {T : List Str} (hg : GoodT T) {L : List Seg}
    (hv : segValid T L) {k : Nat} (hk : k < T.length) {P R : List Seg}
    (hL : L = P ++ R) (hnP : Seg.tok k ∉ P) {p : Nat}
    (hocc : occAt (T.getD k []) (flat T L) p) : (flat T P).length ≤ p := by
  obtain ⟨u, v, he, hlen⟩ := hocc
  obtain ⟨L1, L2, i, hsplit, hti, hf1, hf2⟩ :=
    flat_aligned hg L hv _ (getD_mem_of_lt hk) u v he
  have hi : i < T.length :=
    hv (.tok i) (hsplit ▸ List.mem_append_right _ (List.mem_cons_self _ _))
  have hik : i = k := tok_index_eq hg hi hk hti
  subst hik
  rw [← hlen, ← hf1]
  exact split_pos_ge hL hnP hsplit

theorem tok_not_mem_cleanSegs (j : Nat) (m : Str) : Seg.tok j ∉ cleanSegs m := by
  intro h
  obtain ⟨a, _, ha⟩ := List.mem_map.mp h
  cases ha

theorem bool_list_nil {l : List Bool} (h1 : true ∉ l) (h2 : false ∉ l) : l = [] := by
  cases l with
  | nil => rfl
  | cons x r =>
    cases x
    · exact absurd (List.mem_cons_self _ _) h2
    · exact absurd (List.mem_cons_self _ _) h1

theorem segValid_cleanSegs {T : List Str} {m : Str} (h : cleanStr m) :
    segValid T (cleanSegs m) := by
  intro sg hsg
  obtain ⟨a, ham, rfl⟩ := List.mem_map.mp hsg
  exact h a ham

theorem segValid_append_iff {T : List Str} {A B : List Seg} :
    segValid T (A ++ B) ↔ segValid T A ∧ segValid T B := by
  constructor
  · intro h
    exact ⟨fun s hs => h s (List.mem_append_left _ hs),
      fun s hs => h s (List.mem_append_right _ hs)⟩
  · rintro ⟨hA, hB⟩ s hs
    rcases List.mem_append.mp hs with h | h
    · exact hA s h
    · exact hB s h

theorem events_true_of_tok_mem {oi ci : Nat} {L : List Seg}
    (h : Seg.tok oi ∈ L) : true ∈ events oi ci L := by
  rw [events, List.mem_filterMap]
  exact ⟨.tok oi, h, by simp⟩

theorem events_false_of_tok_mem {oi ci : Nat} {L : List Seg} (hne : oi ≠ ci)
    (h : Seg.tok ci ∈ L) : false ∈ events oi ci L := by
  rw [events, List.mem_filterMap]
  exact ⟨.tok ci, h, by simp [Ne.symm hne]⟩

/-- One iteration of the open-token loop, on a buffer whose segments are
balanced for the current pair: the found open token is the leftmost one and
is a whole segment; a matching close token exists further right (so the
append-`newCloseCode` branch is not taken); both are replaced by their
markup-free markers, preserving validity, balance, the position bound, the
events of every other pair, and introducing no token segments. -/
theorem openLoop_iter {T : List Str} (hg : GoodT T) {oi ci : Nat}
    (hoi : oi < T.length) (hci : ci < T.length) (hne : oi ≠ ci)
    {no nc : Str} (hno : cleanStr no) (hnc : cleanStr nc)
    {L : List Seg} (hv : segValid T L) (hbal : Bal (events oi ci L))
    {ix ixF : Nat}
    (hPosO : ∀ p, occAt (T.getD oi []) (flat T L) p → ix ≤ p)
    (hfind : pyFind? (T.getD oi []) (flat T L) ix = some ixF) :
    ∃ L' : List Seg,
      segValid T L' ∧ Bal (events oi ci L') ∧
      (∀ p, occAt (T.getD oi []) (flat T L') p → ixF ≤ p) ∧
      (∀ p, occAt (T.getD ci []) (flat T L') p → ixF ≤ p) ∧
      (∀ a b : Nat, a ≠ oi → a ≠ ci → b ≠ oi → b ≠ ci →
        events a b L' = events a b L) ∧
      (∀ j, Seg.tok j ∈ L' → Seg.tok j ∈ L) ∧
      (events oi ci L').length + 2 = (events oi ci L).length ∧
      (∃ q, pyFind? (T.getD ci []) (pyReplaceFirst (T.getD oi []) no (flat T L)) ixF
          = some q ∧
        pyReplaceFirst (T.getD ci []) nc
          (pyReplaceFirst (T.getD oi []) no (flat T L)) = flat T L') := by
  obtain ⟨hixle, hoccF, hmin⟩ := pyFind?_eq_some_inv hfind
  have hgmin : ∀ j, occAt (T.getD oi []) (flat T L) j → ixF ≤ j := by
    intro j hj
    by_contra hlt
    exact hmin j (hPosO j hj) (by omega) hj
  have hfind0 : pyFind? (T.getD oi []) (flat T L) 0 = some ixF :=
    pyFind?_eq_some_intro hoccF (Nat.zero_le _)
      (fun j _ hlt hocc => absurd (hgmin j hocc) (by omega))
  -- align the found open occurrence with a token segment
  obtain ⟨u, v, heq, hulen⟩ := hoccF
  obtain ⟨L1, L2, i, hsplit, hti, hf1, hf2⟩ :=
    flat_aligned hg L hv _ (getD_mem_of_lt hoi) u v heq
  have hi : i < T.length :=
    hv (.tok i) (hsplit ▸ List.mem_append_right _ (List.mem_cons_self _ _))
  have hik : i = oi := tok_index_eq hg hi hoi hti
  rw [hik] at hsplit
  subst hf1
  subst hf2
  have holen : 0 < (T.getD oi []).length :=
    List.length_pos.mpr (hg.nonempty _ (getD_mem_of_lt hoi))
  have hclen : 0 < (T.getD ci []).length :=
    List.length_pos.mpr (hg.nonempty _ (getD_mem_of_lt hci))
  -- the buffer after the open replacement
  have he1 : (flat T L).take ixF = flat T L1 := by
    rw [heq, ← hulen, List.append_assoc]
    exact List.take_left _ _
  have he2 : (flat T L).drop (ixF + (T.getD oi []).length) = flat T L2 := by
    rw [heq, ← hulen]
    exact List.drop_left' (by simp)
  have hs1 : pyReplaceFirst (T.getD oi []) no (flat T L)
      = flat T (L1 ++ cleanSegs no ++ L2) := by
    unfold pyReplaceFirst
    rw [hfind0]
    show (flat T L).take ixF ++ no ++ (flat T L).drop (ixF + (T.getD oi []).length)
      = flat T (L1 ++ cleanSegs no ++ L2)
    rw [he1, he2, flat_append, flat_append, flat_cleanSegs]
  -- no open segment in L1
  have hoL1 : Seg.tok oi ∉ L1 := by
    intro hmem
    obtain ⟨A, B, hAB, _⟩ := exists_first_mem hmem
    have hocc2 : occAt (T.getD oi []) (flat T L) (flat T A).length := by
      have : L = A ++ Seg.tok oi :: (B ++ Seg.tok oi :: L2) := by
        rw [hsplit, hAB]
        simp
      rw [this]
      exact occAt_of_split T A (B ++ Seg.tok oi :: L2) oi
    have hge := hgmin _ hocc2
    have : (flat T A).length + (T.getD oi []).length ≤ (flat T L1).length := by
      rw [hAB, flat_append]
      rw [show flat T (Seg.tok oi :: B) = T.getD oi [] ++ flat T B from rfl]
      simp
    rw [hulen] at this
    omega
  -- events of L1 are empty, hence no close segment there either
  have hevL : events oi ci L = events oi ci L1 ++ true :: events oi ci L2 := by
    rw [hsplit, show L1 ++ Seg.tok oi :: L2 = L1 ++ ([Seg.tok oi] ++ L2) from by simp,
      events_append, events_append, events_tok_open oi ci hne]
    rfl
  have hevL1 : events oi ci L1 = [] := by
    have hnt : true ∉ events oi ci L1 := fun hmem => hoL1 (tok_mem_of_events_true hmem)
    have hpre := hbal.2 (events oi ci L1) (true :: events oi ci L2) hevL
    have hcf : (events oi ci L1).count false = 0 := by
      have hct : (events oi ci L1).count true = 0 := List.count_eq_zero.mpr hnt
      omega
    exact bool_list_nil hnt (List.count_eq_zero.mp hcf)
  have hcL1 : Seg.tok ci ∉ L1 := fun hmem =>
    (List.count_eq_zero.mp (by
      have hct : (events oi ci L1).count true = 0 := by rw [hevL1]; rfl
      rw [hevL1]; rfl))
      (events_false_of_tok_mem hne hmem)
  -- balance after removing the leading open event
  have hbal2 : Bal (true :: events oi ci L2) := by
    rw [hevL, hevL1] at hbal
    exact hbal
  -- a close segment exists in L2; take the first one
  have hcmem : Seg.tok ci ∈ L2 := by
    have hf : false ∈ events oi ci L2 := by
      obtain ⟨hc, _⟩ := hbal2
      by_contra hnf
      have h0 : (events oi ci L2).count false = 0 := List.count_eq_zero.mpr hnf
      simp [List.count_cons, h0] at hc
    exact tok_mem_of_events_false hf
  obtain ⟨A, B, hAB, hcA⟩ := exists_first_mem hcmem
  -- abbreviations for the two replacement states
  have hvL1 : segValid T L1 := by
    rw [hsplit] at hv
    exact (segValid_append_iff.mp hv).1
  have hvL2 : segValid T L2 := by
    rw [hsplit] at hv
    have := (segValid_append_iff.mp hv).2
    exact fun s hs => this s (List.mem_cons_of_mem _ hs)
  have hvA : segValid T A := by
    rw [hAB] at hvL2
    exact (segValid_append_iff.mp hvL2).1
  have hvB : segValid T B := by
    rw [hAB] at hvL2
    have := (segValid_append_iff.mp hvL2).2
    exact fun s hs => this s (List.mem_cons_of_mem _ hs)
  -- the close position
  have hM : L1 ++ cleanSegs no ++ L2
      = (L1 ++ cleanSegs no ++ A) ++ Seg.tok ci :: B := by
    rw [hAB]
    simp
  have hcP : Seg.tok ci ∉ L1 ++ cleanSegs no ++ A := by
    intro hmem
    rcases List.mem_append.mp hmem with hmem' | hA
    · rcases List.mem_append.mp hmem' with h1 | h2
      · exact hcL1 h1
      · exact tok_not_mem_cleanSegs ci no h2
    · exact hcA hA
  have hvM : segValid T (L1 ++ cleanSegs no ++ L2) := by
    rw [segValid_append_iff, segValid_append_iff]
    exact ⟨⟨hvL1, segValid_cleanSegs hno⟩, hvL2⟩
  have hoccq : occAt (T.getD ci []) (flat T (L1 ++ cleanSegs no ++ L2))
      (flat T (L1 ++ cleanSegs no ++ A)).length := by
    rw [hM]
    exact occAt_of_split T _ B ci
  have hqge : ∀ p, occAt (T.getD ci []) (flat T (L1 ++ cleanSegs no ++ L2)) p →
      (flat T (L1 ++ cleanSegs no ++ A)).length ≤ p := by
    intro p hp
    exact occAt_pos_ge hg (hM ▸ hvM) hci hM hcP (hM ▸ hp)
  have hqval : (flat T (L1 ++ cleanSegs no ++ A)).length
      = ixF + no.length + (flat T A).length := by
    rw [flat_append, flat_append, flat_cleanSegs]
    simp [hulen]
    omega
  have hfindc : pyFind? (T.getD ci []) (flat T (L1 ++ cleanSegs no ++ L2)) ixF
      = some (flat T (L1 ++ cleanSegs no ++ A)).length := by
    refine pyFind?_eq_some_intro hoccq (by omega) (fun j _ hlt hocc => ?_)
    exact absurd (hqge j hocc) (by omega)
  have hfindc0 : pyFind? (T.getD ci []) (flat T (L1 ++ cleanSegs no ++ L2)) 0
      = some (flat T (L1 ++ cleanSegs no ++ A)).length := by
    refine pyFind?_eq_some_intro hoccq (Nat.zero_le _) (fun j _ hlt hocc => ?_)
    exact absurd (hqge j hocc) (by omega)
  -- the buffer after the close replacement
  have heqM : flat T (L1 ++ cleanSegs no ++ L2)
      = (flat T (L1 ++ cleanSegs no ++ A) ++ T.getD ci []) ++ flat T B := by
    conv_lhs => rw [hM]
    rw [flat_append]
    rw [show flat T (Seg.tok ci :: B) = T.getD ci [] ++ flat T B from rfl]
    rw [← List.append_assoc]
  have heqMr : flat T (L1 ++ cleanSegs no ++ L2)
      = flat T (L1 ++ cleanSegs no ++ A) ++ (T.getD ci [] ++ flat T B) :=
    heqM.trans (List.append_assoc _ _ _)
  have hce1 : (flat T (L1 ++ cleanSegs no ++ L2)).take
      (flat T (L1 ++ cleanSegs no ++ A)).length
      = flat T (L1 ++ cleanSegs no ++ A) := by
    rw [heqMr]
    exact List.take_left _ _
  have hce2 : (flat T (L1 ++ cleanSegs no ++ L2)).drop
      ((flat T (L1 ++ cleanSegs no ++ A)).length + (T.getD ci []).length)
      = flat T B := by
    rw [heqM]
    exact List.drop_left' (by simp)
  have hs2 : pyReplaceFirst (T.getD ci []) nc (flat T (L1 ++ cleanSegs no ++ L2))
      = flat T (L1 ++ cleanSegs no ++ A ++ cleanSegs nc ++ B) := by
    unfold pyReplaceFirst
    rw [hfindc0]
    show (flat T (L1 ++ cleanSegs no ++ L2)).take
          (flat T (L1 ++ cleanSegs no ++ A)).length
        ++ nc ++ (flat T (L1 ++ cleanSegs no ++ L2)).drop
          ((flat T (L1 ++ cleanSegs no ++ A)).length + (T.getD ci []).length)
      = flat T (L1 ++ cleanSegs no ++ A ++ cleanSegs nc ++ B)
    rw [hce1, hce2]
    simp [flat_append, flat_cleanSegs, List.append_assoc]
  refine ⟨L1 ++ cleanSegs no ++ A ++ cleanSegs nc ++ B, ?_, ?_, ?_, ?_, ?_, ?_, ?_, ?_⟩
  · rw [segValid_append_iff, segValid_append_iff, segValid_append_iff,
      segValid_append_iff]
    exact ⟨⟨⟨⟨hvL1, segValid_cleanSegs hno⟩, hvA⟩, segValid_cleanSegs hnc⟩, hvB⟩
  · have hevA : ∀ x ∈ events oi ci A, x = true := by
      intro x hx
      cases x
      · exact absurd (tok_mem_of_events_false hx) hcA
      · rfl
    have hevL2 : events oi ci L2 = events oi ci A ++ false :: events oi ci B := by
      rw [hAB, show A ++ Seg.tok ci :: B = A ++ ([Seg.tok ci] ++ B) from by simp,
        events_append, events_append, events_tok_close oi ci hne]
      rfl
    have hev' : events oi ci (L1 ++ cleanSegs no ++ A ++ cleanSegs nc ++ B)
        = events oi ci A ++ events oi ci B := by
      rw [events_append, events_append, events_append, events_append,
        events_cleanSegs, events_cleanSegs, hevL1]
      simp
    rw [hev']
    refine Bal_remove ?_ hevA
    rw [hevL2] at hbal2
    rw [List.cons_append]
    exact hbal2
  · intro p hp
    have hnoP : Seg.tok oi ∉ L1 ++ cleanSegs no := by
      intro hmem
      rcases List.mem_append.mp hmem with h1 | h2
      · exact hoL1 h1
      · exact tok_not_mem_cleanSegs oi no h2
    have hsplit' : L1 ++ cleanSegs no ++ A ++ cleanSegs nc ++ B
        = (L1 ++ cleanSegs no) ++ (A ++ cleanSegs nc ++ B) := by simp
    have := occAt_pos_ge hg (by
        rw [segValid_append_iff, segValid_append_iff, segValid_append_iff,
          segValid_append_iff]
        exact ⟨⟨⟨⟨hvL1, segValid_cleanSegs hno⟩, hvA⟩, segValid_cleanSegs hnc⟩, hvB⟩)
      hoi hsplit' hnoP hp
    have hlen1 : (flat T (L1 ++ cleanSegs no)).length = ixF + no.length := by
      rw [flat_append, flat_cleanSegs]
      simp [hulen]
    omega
  · intro p hp
    have hnoP : Seg.tok ci ∉ L1 ++ cleanSegs no := by
      intro hmem
      rcases List.mem_append.mp hmem with h1 | h2
      · exact hcL1 h1
      · exact tok_not_mem_cleanSegs ci no h2
    have hsplit' : L1 ++ cleanSegs no ++ A ++ cleanSegs nc ++ B
        = (L1 ++ cleanSegs no) ++ (A ++ cleanSegs nc ++ B) := by simp
    have := occAt_pos_ge hg (by
        rw [segValid_append_iff, segValid_append_iff, segValid_append_iff,
          segValid_append_iff]
        exact ⟨⟨⟨⟨hvL1, segValid_cleanSegs hno⟩, hvA⟩, segValid_cleanSegs hnc⟩, hvB⟩)
      hci hsplit' hnoP hp
    have hlen1 : (flat T (L1 ++ cleanSegs no)).length = ixF + no.length := by
      rw [flat_append, flat_cleanSegs]
      simp [hulen]
    omega
  · intro a b ha1 ha2 hb1 hb2
    have h1 : events a b [Seg.tok oi] = [] := events_tok_other a b oi
      (fun h => ha1 h.symm) (fun h => hb1 h.symm)
    have h2 : events a b [Seg.tok ci] = [] := events_tok_other a b ci
      (fun h => ha2 h.symm) (fun h => hb2 h.symm)
    rw [hsplit, hAB]
    rw [show L1 ++ Seg.tok oi :: (A ++ Seg.tok ci :: B)
        = L1 ++ [Seg.tok oi] ++ A ++ [Seg.tok ci] ++ B from by simp]
    rw [events_append, events_append, events_append, events_append,
      events_append, events_append, events_append, events_append,
      events_cleanSegs, events_cleanSegs, h1, h2]
  · intro j hj
    rw [hsplit, hAB]
    rcases List.mem_append.mp hj with hj' | hjB
    · rcases List.mem_append.mp hj' with hj'' | hjnc
      · rcases List.mem_append.mp hj'' with hj3 | hjA
        · rcases List.mem_append.mp hj3 with hjL1 | hjno
          · exact List.mem_append_left _ hjL1
          · exact absurd hjno (tok_not_mem_cleanSegs j no)
        · exact List.mem_append_right _ (List.mem_cons_of_mem _
            (List.mem_append_left _ hjA))
      · exact absurd hjnc (tok_not_mem_cleanSegs j nc)
    · exact List.mem_append_right _ (List.mem_cons_of_mem _
        (List.mem_append_right _ (List.mem_cons_of_mem _ hjB)))
  · have hevL2 : events oi ci L2 = events oi ci A ++ false :: events oi ci B := by
      rw [hAB, show A ++ Seg.tok ci :: B = A ++ ([Seg.tok ci] ++ B) from by simp,
        events_append, events_append, events_tok_close oi ci hne]
      rfl
    have hL'ev : events oi ci (L1 ++ cleanSegs no ++ A ++ cleanSegs nc ++ B)
        = events oi ci A ++ events oi ci B := by
      rw [events_append, events_append, events_append, events_append,
        events_cleanSegs, events_cleanSegs, hevL1]
      simp
    rw [hL'ev, hevL, hevL1, hevL2]
    simp only [List.length_append, List.length_cons, List.nil_append]
    omega
  · refine ⟨(flat T (L1 ++ cleanSegs no ++ A)).length, ?_, ?_⟩
    · rw [hs1]
      exact hfindc
    · rw [hs1]
      exact hs2

/-- If token `k` appears nowhere among the segments, the flattened buffer has
no occurrence of its string, so `find` fails from any start index. -/
theorem tok_find_none {T : List Str} (hg : GoodT T) {k : Nat} (hk : k < T.length)
    {L : List Seg} (hv : segValid T L) (hnm : Seg.tok k ∉ L) (ix : Nat) :
    pyFind? (T.getD k []) (flat T L) ix = none := by
  refine pyFind?_eq_none_intro (fun j _ hocc => ?_)
  obtain ⟨u, v, he, _⟩ := hocc
  obtain ⟨L1, L2, i, hsplit, hti, hf1, hf2⟩ :=
    flat_aligned hg L hv _ (getD_mem_of_lt hk) u v he
  have hi : i < T.length :=
    hv (.tok i) (hsplit ▸ List.mem_append_right _ (List.mem_cons_self _ _))
  have hik : i = k := tok_index_eq hg hi hk hti
  rw [hik] at hsplit
  exact hnm (hsplit ▸ List.mem_append_right _ (List.mem_cons_self _ _))

/-- The open-token `while` loop of `replaceFixedPairs` (source lines 110-120)
on a balanced buffer: it terminates normally, removes every open and close
token of the current pair, preserves validity and the events of every other
pair, and introduces no token segments. -/
theorem openLoop_spec {T : List Str} (hg : GoodT T) {oi ci : Nat}
    (hoi : oi < T.length) (hci : ci < T.length) (hne : oi ≠ ci)
    {no nc : Str} (hno : cleanStr no) (hnc : cleanStr nc) :
    ∀ (fuel : Nat) (L : List Seg) (ix : Nat),
      segValid T L → Bal (events oi ci L) →
      (∀ p, occAt (T.getD oi []) (flat T L) p → ix ≤ p) →
      (events oi ci L).length ≤ 2 * fuel →
      ∃ L' : List Seg,
        openLoop (T.getD oi []) no (T.getD ci []) nc fuel (flat T L)
            (pyFind? (T.getD oi []) (flat T L) ix) = .ok (flat T L')
        ∧ segValid T L'
        ∧ (∀ a b : Nat, a ≠ oi → a ≠ ci → b ≠ oi → b ≠ ci →
            events a b L' = events a b L)
        ∧ (∀ j, Seg.tok j ∈ L' → Seg.tok j ∈ L)
        ∧ Seg.tok oi ∉ L' ∧ Seg.tok ci ∉ L' := by
  intro fuel
  induction fuel with
  | zero =>
    intro L ix hv hbal hpos hlen
    have hev : events oi ci L = [] := List.eq_nil_of_length_eq_zero (by omega)
    have hnoO : Seg.tok oi ∉ L := by
      intro hmem
      have ht : true ∈ events oi ci L := events_true_of_tok_mem hmem
      rw [hev] at ht
      cases ht
    have hnone : pyFind? (T.getD oi []) (flat T L) ix = none :=
      tok_find_none hg hoi hv hnoO ix
    rw [hnone, openLoop_none]
    refine ⟨L, rfl, hv, fun _ _ _ _ _ _ => rfl, fun _ h => h, hnoO, ?_⟩
    intro hmem
    have hf : false ∈ events oi ci L := events_false_of_tok_mem hne hmem
    rw [hev] at hf
    cases hf
  | succ fuel ih =>
    intro L ix hv hbal hpos hlen
    cases hfind : pyFind? (T.getD oi []) (flat T L) ix with
    | none =>
      rw [openLoop_none]
      have hnoO : Seg.tok oi ∉ L := by
        intro hmem
        obtain ⟨A, B, hAB, _⟩ := exists_first_mem hmem
        have hocc : occAt (T.getD oi []) (flat T L) (flat T A).length := by
          rw [hAB]
          exact occAt_of_split T A B oi
        exact pyFind?_eq_none_inv hfind _ (hpos _ hocc) hocc
      have hev : events oi ci L = [] :=
        Bal_no_true_nil hbal (fun hmem => hnoO (tok_mem_of_events_true hmem))
      refine ⟨L, rfl, hv, fun _ _ _ _ _ _ => rfl, fun _ h => h, hnoO, ?_⟩
      intro hmem
      have hf : false ∈ events oi ci L := events_false_of_tok_mem hne hmem
      rw [hev] at hf
      cases hf
    | some ixF =>
      obtain ⟨L1, hv1, hbal1, hposO, _, hevOther, hmem1, hlen2, q, hq, hrepl⟩ :=
        openLoop_iter hg hoi hci hne hno hnc hv hbal hpos hfind
      obtain ⟨L2, hrun, hv2, hevOther2, hmem2, hnoO, hnoC⟩ :=
        ih L1 ixF hv1 hbal1 hposO (by omega)
      refine ⟨L2, ?_, hv2, ?_, fun j hj => hmem1 j (hmem2 j hj), hnoO, hnoC⟩
      · simp only [openLoop, hq, hrepl]
        exact hrun
      · intro a b h1 h2 h3 h4
        rw [hevOther2 a b h1 h2 h3 h4, hevOther a b h1 h2 h3 h4]

/-- One pass of the `for` loop of `replaceFixedPairs` on a balanced buffer:
the bare-close repair branch (source lines 121-134) is never entered, since
the open loop has already consumed every close token of the pair. -/
theorem pairStep_spec {T : List Str} (hg : GoodT T) {oi ci : Nat}
    (hoi : oi < T.length) (hci : ci < T.length) (hne : oi ≠ ci)
    {no nc : Str} (hno : cleanStr no) (hnc : cleanStr nc)
    {fuel : Nat} {L : List Seg} (hv : segValid T L)
    (hbal : Bal (events oi ci L))
    (hlen : (events oi ci L).length ≤ 2 * fuel) :
    ∃ L' : List Seg,
      pairStep fuel (T.getD oi []) no (T.getD ci []) nc (flat T L)
          = .ok (flat T L')
      ∧ segValid T L'
      ∧ (∀ a b : Nat, a ≠ oi → a ≠ ci → b ≠ oi → b ≠ ci →
          events a b L' = events a b L)
      ∧ (∀ j, Seg.tok j ∈ L' → Seg.tok j ∈ L)
      ∧ Seg.tok oi ∉ L' ∧ Seg.tok ci ∉ L' := by
  obtain ⟨L', hrun, hv', hevOther, hmem, hnoO, hnoC⟩ :=
    openLoop_spec hg hoi hci hne hno hnc fuel L 0 hv hbal
      (fun _ _ => Nat.zero_le _) hlen
  refine ⟨L', ?_, hv', hevOther, hmem, hnoO, hnoC⟩
  simp only [pairStep, hrun, tok_find_none hg hci hv' hnoC 0]

theorem mem_quadIdx {j : Nat} :
    ∀ {quads : List (Nat × Nat × Str × Str)},
      j ∈ quadIdx quads ↔ ∃ q ∈ quads, j = q.1 ∨ j = q.2.1 := by
  intro quads
  induction quads with
  | nil => simp [quadIdx]
  | cons q rest ih =>
    simp only [quadIdx, List.mem_cons, ih]
    constructor
    · rintro (h | h | ⟨r, hr, hor⟩)
      · exact ⟨q, Or.inl rfl, Or.inl h⟩
      · exact ⟨q, Or.inl rfl, Or.inr h⟩
      · exact ⟨r, Or.inr hr, hor⟩
    · rintro ⟨r, hr | hr, hor⟩
      · rw [hr] at hor
        rcases hor with h | h
        · exact Or.inl h
        · exact Or.inr (Or.inl h)
      · exact Or.inr (Or.inr ⟨r, hr, hor⟩)

/-- The `for` loop of `replaceFixedPairs` over a table of pairs whose token
indices are pairwise distinct: on a buffer whose token segments all belong to
the table and whose events are balanced for every pair, the loop returns
normally and the result contains no token segment at all. -/
theorem replaceFixedPairs_spec {T : List Str} (hg : GoodT T) (fuel : Nat) :
    ∀ (quads : List (Nat × Nat × Str × Str)) (L : List Seg),
      segValid T L →
      (∀ q ∈ quads, q.1 < T.length ∧ q.2.1 < T.length ∧
        cleanStr q.2.2.1 ∧ cleanStr q.2.2.2) →
      (quadIdx quads).Nodup →
      (∀ q ∈ quads, Bal (events q.1 q.2.1 L)) →
      (∀ q ∈ quads, (events q.1 q.2.1 L).length ≤ 2 * fuel) →
      (∀ j, Seg.tok j ∈ L → j ∈ quadIdx quads) →
      ∃ L' : List Seg,
        replaceFixedPairs fuel
            (quads.map fun q => (T.getD q.1 [], q.2.2.1, T.getD q.2.1 [], q.2.2.2))
            (flat T L) = .ok (flat T L')
        ∧ segValid T L' ∧ ∀ j, Seg.tok j ∉ L' := by
  intro quads
  induction quads with
  | nil =>
    intro L hv _ _ _ _ hcov
    exact ⟨L, rfl, hv, fun j hj => by
      have := hcov j hj
      simp [quadIdx] at this⟩
  | cons q rest ih =>
    intro L hv hbnd hnd hbal hfl hcov
    obtain ⟨hb1, hb2, hcno, hcnc⟩ := hbnd q (List.mem_cons_self _ _)
    have hnd1 : q.1 ∉ q.2.1 :: quadIdx rest := (List.nodup_cons.mp hnd).1
    have hnd' : (q.2.1 :: quadIdx rest).Nodup := (List.nodup_cons.mp hnd).2
    have hne : q.1 ≠ q.2.1 := fun h => hnd1 (by rw [h]; exact List.mem_cons_self _ _)
    have hq1r : q.1 ∉ quadIdx rest := fun h => hnd1 (List.mem_cons_of_mem _ h)
    have hq2r : q.2.1 ∉ quadIdx rest := (List.nodup_cons.mp hnd').1
    have hndr : (quadIdx rest).Nodup := (List.nodup_cons.mp hnd').2
    obtain ⟨L1, hrun1, hv1, hevO, hmem1, hnoO, hnoC⟩ :=
      pairStep_spec hg hb1 hb2 hne hcno hcnc hv
        (hbal q (List.mem_cons_self _ _)) (hfl q (List.mem_cons_self _ _))
    have hdists : ∀ r ∈ rest, r.1 ≠ q.1 ∧ r.1 ≠ q.2.1 ∧
        r.2.1 ≠ q.1 ∧ r.2.1 ≠ q.2.1 := by
      intro r hr
      have h1 : r.1 ∈ quadIdx rest := mem_quadIdx.mpr ⟨r, hr, Or.inl rfl⟩
      have h2 : r.2.1 ∈ quadIdx rest := mem_quadIdx.mpr ⟨r, hr, Or.inr rfl⟩
      exact ⟨fun h => hq1r (h ▸ h1), fun h => hq2r (h ▸ h1),
        fun h => hq1r (h ▸ h2), fun h => hq2r (h ▸ h2)⟩
    have hevEq : ∀ r ∈ rest, events r.1 r.2.1 L1 = events r.1 r.2.1 L := by
      intro r hr
      obtain ⟨d1, d2, d3, d4⟩ := hdists r hr
      exact hevO r.1 r.2.1 d1 d2 d3 d4
    obtain ⟨L', hrun2, hv', hnt⟩ := ih L1 hv1
      (fun r hr => hbnd r (List.mem_cons_of_mem _ hr)) hndr
      (fun r hr => by rw [hevEq r hr]; exact hbal r (List.mem_cons_of_mem _ hr))
      (fun r hr => by rw [hevEq r hr]; exact hfl r (List.mem_cons_of_mem _ hr))
      (fun j hj => by
        have hjL := hmem1 j hj
        have hjIdx := hcov j hjL
        rcases List.mem_cons.mp hjIdx with h1 | h2
        · exact absurd (h1 ▸ hj) hnoO
        · rcases List.mem_cons.mp h2 with h3 | h4
          · exact absurd (h3 ▸ hj) hnoC
          · exact h4)
    refine ⟨L', ?_, hv', hnt⟩
    simp only [List.map_cons, replaceFixedPairs, hrun1]
    exact hrun2

/-- A segment buffer with no token segments flattens to a markup-free
string. -/
theorem cleanStr_flat {T : List Str} {L : List Seg} (hv : segValid T L)
    (hnt : ∀ j, Seg.tok j ∉ L) : cleanStr (flat T L) := by
  induction L with
  | nil =>
    intro ch hch
    cases hch
  | cons sg L ih =>
    cases sg with
    | chr a =>
      intro ch hch
      simp only [flat, List.mem_cons] at hch
      rcases hch with rfl | h
      · exact hv (.chr ch) (List.mem_cons_self _ _)
      · exact ih (fun s hs => hv s (List.mem_cons_of_mem _ hs))
          (fun j hj => hnt j (List.mem_cons_of_mem _ hj)) ch h
    | tok i => exact absurd (List.mem_cons_self _ _) (hnt i)

theorem thmlTokens_good : GoodT thmlTokens :=
  ⟨by decide, by decide, by decide, by decide, by decide, by decide, by decide⟩

theorem thmlTable_eq : thmlTable
    = thmlQuads.map (fun q =>
        (thmlTokens.getD q.1 [], q.2.2.1, thmlTokens.getD q.2.1 [], q.2.2.2)) := by
  rfl

/-- In a valid buffer over a well-behaved token list, every `'<'` character
begins an occurrence of a whole token. -/
theorem lt_begins_token {T : List Str} (hg : GoodT T) :
    ∀ (L : List Seg), segValid T L → ∀ u v : Str, flat T L = u ++ '<' :: v →
      ∃ i, i < T.length ∧ ∃ w, '<' :: v = T.getD i [] ++ w := by
  intro L
  induction L with
  | nil =>
    intro _ u v h
    rw [flat] at h
    exact absurd h.symm (by simp)
  | cons sg L ihL =>
    intro hv u v h
    cases sg with
    | chr a =>
      rw [flat] at h
      cases u with
      | nil =>
        rw [List.nil_append] at h
        injection h with h1 h2
        exact absurd h1 (hv (.chr a) (List.mem_cons_self _ _)).1
      | cons b u' =>
        rw [List.cons_append] at h
        injection h with h1 h2
        exact ihL (fun s hs => hv s (List.mem_cons_of_mem _ hs)) u' v h2
    | tok i =>
      rw [flat] at h
      have hiT : i < T.length := hv (.tok i) (List.mem_cons_self _ _)
      rcases List.append_eq_append_iff.mp h with ⟨x, hux, hflx⟩ | ⟨y, hty, hvy⟩
      · exact ihL (fun s hs => hv s (List.mem_cons_of_mem _ hs)) x v hflx
      · cases y with
        | nil =>
          rw [List.nil_append] at hvy
          exact ihL (fun s hs => hv s (List.mem_cons_of_mem _ hs)) [] v
            (by rw [List.nil_append]; exact hvy.symm)
        | cons c y' =>
          rw [List.cons_append] at hvy
          injection hvy with h1 h2
          cases u with
          | nil =>
            refine ⟨i, hiT, flat T L, ?_⟩
            rw [hty, List.nil_append, List.cons_append, ← h1, h2]
          | cons d u' =>
            have hmem : '<' ∈ (T.getD i []).drop 1 := by
              rw [hty, List.cons_append]
              simp [← h1]
            exact absurd rfl (hg.ltOnlyHead _ (getD_mem_of_lt hiT) '<' hmem)

/-- No occurrence of a pattern `'<' :: c1 :: …` exists in a valid buffer when
no token's first two characters are `['<', c1]`. -/
theorem no_occ_of_second_char {T : List Str} (hg : GoodT T) {L : List Seg}
    (hv : segValid T L) {c1 : Char} (r : Str)
    (hT : ∀ t ∈ T, t.take 2 ≠ ['<', c1]) :
    ∀ p, ¬ occAt ('<' :: c1 :: r) (flat T L) p := by
  rintro p ⟨u, v', he, _⟩
  have he' : flat T L = u ++ '<' :: (c1 :: (r ++ v')) := by rw [he]; simp
  obtain ⟨i, hi, w, hw⟩ := lt_begins_token hg L hv u _ he'
  have ht := hT _ (getD_mem_of_lt hi)
  have hhead := hg.headLt _ (getD_mem_of_lt hi)
  have hlast := hg.lastGt _ (getD_mem_of_lt hi)
  cases hti : T.getD i [] with
  | nil => rw [hti] at hhead; cases hhead
  | cons a t' =>
    rw [hti] at hw ht hhead hlast
    have ha : a = '<' := by simpa using hhead
    cases t' with
    | nil =>
      have hgt : a = '>' := by simpa using hlast
      rw [ha] at hgt
      cases hgt
    | cons b t'' =>
      rw [List.cons_append, List.cons_append] at hw
      injection hw with h1 hw2
      injection hw2 with h2 _
      refine ht ?_
      show (a :: b :: t'').take 2 = ['<', c1]
      rw [← h1, ← h2]
      rfl

theorem not_prefix_of_no_occ {pat s : Str} (h : ∀ p, ¬ occAt pat s p) :
    ∀ u v, s = u ++ v → pat.isPrefixOf v = false := by
  intro u v hs
  by_contra hne
  have htrue : pat.isPrefixOf v = true := Bool.not_eq_false _ ▸ hne
  obtain ⟨v2, hv2⟩ := isPrefixOf_mp htrue
  refine h u.length ⟨u, v2, ?_, rfl⟩
  rw [hs, ← hv2, List.append_assoc]

theorem lazyMidL_not_pre {pre post : Str} {cls : Char → Bool} {plus : Bool}
    {u : Str} (h : pre.isPrefixOf u = false) :
    lazyMidL pre post cls plus u = none := by
  simp [lazyMidL, h]

/-- A `pre(.+?)post` matcher whose opening literal starts `'<' :: c1` with
`c1` foreign to every token's second character fails at every suffix of a
valid buffer. -/
theorem lazyMid_pass_none {T : List Str} (hg : GoodT T) {L : List Seg}
    (hv : segValid T L) {pre : Str} {c1 : Char} {r : Str}
    (hpre : pre = '<' :: c1 :: r) (post : Str) (cls : Char → Bool) (plus : Bool)
    (hT : ∀ t ∈ T, t.take 2 ≠ ['<', c1]) (k : Nat) :
    lazyMidL pre post cls plus ((flat T L).drop k) = none := by
  apply lazyMidL_not_pre
  rw [hpre]
  exact not_prefix_of_no_occ (no_occ_of_second_char hg hv r hT)
    ((flat T L).take k) ((flat T L).drop k) (List.take_append_drop k _).symm

/-- The scripRef regex fails at every suffix of a valid THML buffer: an
occurrence of its opening literal `<scripRef` can only sit on the token
`<scripRef>`, whose next character `'>'` refutes the `[^/>]+?` group. -/
theorem scripRefM_none {L : List Seg} (hv : segValid thmlTokens L) (k : Nat) :
    scripRefM ((flat thmlTokens L).drop k) = none := by
  cases hpre : (lc "<scripRef").isPrefixOf ((flat thmlTokens L).drop k) with
  | false => simp [scripRefM, hpre]
  | true =>
    obtain ⟨v', hv'⟩ := isPrefixOf_mp hpre
    have he' : flat thmlTokens L
        = (flat thmlTokens L).take k ++ '<' :: (lc "scripRef" ++ v') := by
      conv_lhs => rw [← List.take_append_drop k (flat thmlTokens L)]
      rw [← hv']
      rfl
    obtain ⟨i, hi, w, hw⟩ :=
      lt_begins_token thmlTokens_good L hv _ _ he'
    have hi12 : i < 12 := by simpa [thmlTokens] using hi
    interval_cases i
    · have hx : (lc "<sc" : Str) = lc "<fo" := congrArg (List.take 3) hw
      exact absurd hx (by decide)
    · have hx : (lc "<sc" : Str) = lc "</f" := congrArg (List.take 3) hw
      exact absurd hx (by decide)
    · have hx : (lc "<sc" : Str) = lc "<sm" := congrArg (List.take 3) hw
      exact absurd hx (by decide)
    · have hx : (lc "<sc" : Str) = lc "</s" := congrArg (List.take 3) hw
      exact absurd hx (by decide)
    · have hx : (lc "<sc" : Str) = lc "<no" := congrArg (List.take 3) hw
      exact absurd hx (by decide)
    · have hx : (lc "<sc" : Str) = lc "</n" := congrArg (List.take 3) hw
      exact absurd hx (by decide)
    · have hv9 : v' = '>' :: w := congrArg (List.drop 9) hw
      rw [← hv', hv9]
      rfl
    · have hx : (lc "<sc" : Str) = lc "</s" := congrArg (List.take 3) hw
      exact absurd hx (by decide)
    · have hx : (lc "<sc" : Str) = lc "<i>" := congrArg (List.take 3) hw
      exact absurd hx (by decide)
    · have hx : (lc "<sc" : Str) = lc "</i" := congrArg (List.take 3) hw
      exact absurd hx (by decide)
    · have hx : (lc "<sc" : Str) = lc "<su" := congrArg (List.take 3) hw
      exact absurd hx (by decide)
    · have hx : (lc "<sc" : Str) = lc "</s" := congrArg (List.take 3) hw
      exact absurd hx (by decide)

theorem rxPass_id {α : Type} (m : Str → Option (Nat × α)) (repl : α → Str)
    (f : Nat) (s : Str) (h : rxSearchL m s = none) :
    rxPassLoop m repl (f + 1) s = .ok s := by
  simp only [rxPassLoop, h]

theorem pyReplaceAll_id {t r s : Str} (h : pyFind? t s 0 = none) :
    pyReplaceAll t r s = s := by
  cases t with
  | nil => rfl
  | cons a t' =>
    show pyReplaceAllF (a :: t') r (s.length + 1) s = s
    simp only [pyReplaceAllF, h]

theorem events_length_le (oi ci : Nat) (L : List Seg) :
    (events oi ci L).length ≤ L.length := List.length_filterMap_le _ _

theorem length_le_flat {T : List Str} (hg : GoodT T) {L : List Seg}
    (hv : segValid T L) : L.length ≤ (flat T L).length := by
  induction L with
  | nil => simp [flat]
  | cons sg L ih =>
    have ih' := ih (fun s hs => hv s (List.mem_cons_of_mem _ hs))
    cases sg with
    | chr a =>
      simp only [flat, List.length_cons]
      omega
    | tok i =>
      have hne : T.getD i [] ≠ [] :=
        hg.nonempty _ (getD_mem_of_lt (hv (.tok i) (List.mem_cons_self _ _)))
      have hpos : 0 < (T.getD i []).length := List.length_pos.mpr hne
      simp only [flat, List.length_append, List.length_cons]
      omega

theorem Bal_of_take {ev : List Bool}
    (h1 : ev.count true = ev.count false)
    (h2 : ∀ n, n ≤ ev.length → (ev.take n).count false ≤ (ev.take n).count true) :
    Bal ev := by
  refine ⟨h1, fun pre suf he => ?_⟩
  have hpre : pre = ev.take pre.length := by rw [he, List.take_left]
  rw [hpre]
  exact h2 _ (by rw [he]; simp)

/-- C2: for every well-formed THML input built only from open/close tag pairs
declared in the dialect's fixed pair table, `filterTHMLVerseLine` (given
enough fuel for its bounded loops) returns canonical text containing no `'<'`
and no `'>'` characters. -/
theorem claim_C2_thml_no_brackets (debug : Bool) {fuel : Nat} {s : Str}
    (hWF : WFTHML s) (hfuel : s.length < fuel) :
    ∃ out : Str, filterTHMLVerseLine debug fuel s = .ok out
      ∧ '<' ∉ out ∧ '>' ∉ out := by
  obtain ⟨L, hv, hfl, hbal⟩ := hWF
  subst hfl
  obtain ⟨f, rfl⟩ : ∃ f, fuel = f + 1 := ⟨fuel - 1, by omega⟩
  have hg := thmlTokens_good
  have h1 : rxSearchL titleM (flat thmlTokens L) = none :=
    rxSearchL_none_of _ _ (fun k =>
      lazyMid_pass_none hg hv rfl _ _ _ (by decide) k)
  have h2 : rxSearchL secheadM (flat thmlTokens L) = none :=
    rxSearchL_none_of _ _ (fun k =>
      lazyMid_pass_none hg hv rfl _ _ _ (by decide) k)
  have h3 : rxSearchL scripRefM (flat thmlTokens L) = none :=
    rxSearchL_none_of _ _ (fun k => scripRefM_none hv k)
  have h4 : rxSearchL wtM (flat thmlTokens L) = none :=
    rxSearchL_none_of _ _ (fun k =>
      lazyMid_pass_none hg hv rfl _ _ _ (by decide) k)
  have hbr1 : pyFind? (lc "<br />") (flat thmlTokens L) 0 = none := by
    refine pyFind?_eq_none_intro (fun j _ hocc => ?_)
    have hpat : lc "<br />" = '<' :: 'b' :: lc "r />" := rfl
    rw [hpat] at hocc
    exact no_occ_of_second_char hg hv _ (by decide) j hocc
  have hbr2 : pyFind? (lc "<br/>") (flat thmlTokens L) 0 = none := by
    refine pyFind?_eq_none_intro (fun j _ hocc => ?_)
    have hpat : lc "<br/>" = '<' :: 'b' :: lc "r/>" := rfl
    rw [hpat] at hocc
    exact no_occ_of_second_char hg hv _ (by decide) j hocc
  obtain ⟨L', hrun, hv', hnt⟩ :=
    replaceFixedPairs_spec hg (f + 1) thmlQuads L hv
      (by
        intro q hq
        fin_cases hq <;>
          exact ⟨by decide, by decide, by unfold cleanStr; decide,
            by unfold cleanStr; decide⟩)
      (by decide)
      hbal
      (fun q hq => by
        have e1 := events_length_le q.1 q.2.1 L
        have e2 := length_le_flat hg hv
        omega)
      (fun j hj => by
        have hlt : j < thmlTokens.length := hv (.tok j) hj
        have h12 : j < 12 := by simpa [thmlTokens] using hlt
        have hqi : quadIdx thmlQuads = [0, 1, 2, 3, 4, 5, 6, 7, 8, 9, 10, 11] :=
          rfl
        rw [hqi]
        simp only [List.mem_cons, List.not_mem_nil]
        omega)
  have hc := cleanStr_flat hv' hnt
  refine ⟨flat thmlTokens L', ?_, fun hmem => (hc '<' hmem).1 rfl,
    fun hmem => (hc '>' hmem).2 rfl⟩
  unfold filterTHMLVerseLine
  rw [rxPass_id _ _ _ _ h1]
  simp only [pyBind]
  rw [rxPass_id _ _ _ _ h2]
  simp only [pyBind]
  rw [rxPass_id _ _ _ _ h3]
  simp only [pyBind]
  rw [rxPass_id _ _ _ _ h4]
  simp only [pyBind]
  rw [pyReplaceAll_id hbr1, pyReplaceAll_id hbr2, thmlTable_eq, hrun]
  simp only [pyBind]
  rw [if_neg]
  rintro ⟨hor, _⟩
  rcases hor with h | h
  · exact (hc '<' h).1 rfl
  · exact (hc '>' h).2 rfl

theorem no_occ_of_head_notMem {c : Char} {r s : Str} (h : c ∉ s) :
    ∀ p, ¬ occAt (c :: r) s p := by
  rintro p ⟨u, v, he, _⟩
  exact h (by rw [he]; simp)

theorem prefix_false_of_notMem {c : Char} {r s : Str} (h : c ∉ s) (k : Nat) :
    (c :: r).isPrefixOf (s.drop k) = false :=
  not_prefix_of_no_occ (no_occ_of_head_notMem h) (s.take k) (s.drop k)
    (List.take_append_drop k s).symm

theorem head_prefix_false_in_left {c : Char} {r A B : Str} (hA : c ∉ A)
    {k : Nat} (hk : k < A.length) :
    (c :: r).isPrefixOf ((A ++ B).drop k) = false := by
  rw [List.drop_append_eq_append_drop]
  cases hAk : A.drop k with
  | nil =>
    exfalso
    have := List.drop_eq_nil_iff.mp hAk
    omega
  | cons x t =>
    have hx : x ∈ A := List.mem_of_mem_drop (hAk ▸ List.mem_cons_self x t)
    have hxc : c ≠ x := fun he => hA (he ▸ hx)
    rw [List.cons_append]
    simp [List.isPrefixOf, hxc]

/-- `re.search` over `A ++ B` when the matcher fails at every position inside
`A`: the search result is that of `B`, shifted by `A.length`. -/
theorem rxSearchL_concat {α : Type} (m : Str → Option α) (A B : Str)
    (hA : ∀ k, k < A.length → m ((A ++ B).drop k) = none) :
    rxSearchL m (A ++ B)
      = (rxSearchL m B).map (fun pa => (A.length + pa.1, pa.2)) := by
  induction A with
  | nil =>
    cases h : rxSearchL m B with
    | none => simp [h]
    | some pa => simp [h]
  | cons ch A' ih =>
    have h0 := hA 0 (by simp)
    rw [List.drop_zero] at h0
    rw [List.cons_append, rxSearchL]
    rw [show m (ch :: (A' ++ B)) = none from h0]
    rw [ih (fun k hk => by
      have := hA (k + 1) (by simp; omega)
      rwa [List.cons_append, List.drop_succ_cons] at this)]
    cases rxSearchL m B with
    | none => rfl
    | some pa =>
      simp only [Option.map_some']
      simp [List.length_cons]
      omega

theorem rfCallerM_not_pre {u : Str}
    (h : (lc "<RF>").isPrefixOf u = false) : rfCallerM u = none := by
  simp [rfCallerM, h]

theorem rfCalleeM_not_pre {u : Str}
    (h : (lc "<RF>").isPrefixOf u = false) : rfCalleeM u = none := by
  simp [rfCalleeM, h]

theorem rfM3_not_pre {u : Str}
    (h : (lc "<RF>").isPrefixOf u = false) : rfM3 u = none := by
  simp [rfM3, h]

theorem wh0M_not_pre {u : Str}
    (h : (lc "<WH0").isPrefixOf u = false) : wh0M u = none := by
  simp [wh0M, h]

theorem wgM_not_pre {u : Str}
    (h : (lc "<WG").isPrefixOf u = false) : wgM u = none := by
  simp [wgM, h]

/-- A pair whose open and close codes both miss the buffer leaves it
unchanged (neither the open loop nor the bare-close repair fires). -/
theorem pairStep_id {fuel : Nat} {o no c nc s : Str}
    (ho : pyFind? o s 0 = none) (hc : pyFind? c s 0 = none) :
    pairStep fuel o no c nc s = .ok s := by
  simp only [pairStep, ho, openLoop_none, hc]

theorem replaceFixedPairs_id {fuel : Nat} {s : Str} :
    ∀ {table : List (Str × Str × Str × Str)},
      (∀ q ∈ table, pyFind? q.1 s 0 = none ∧ pyFind? q.2.2.1 s 0 = none) →
      replaceFixedPairs fuel table s = .ok s := by
  intro table
  induction table with
  | nil => intro _; rfl
  | cons q rest ih =>
    intro h
    obtain ⟨ho, hc⟩ := h q (List.mem_cons_self _ _)
    obtain ⟨o, no, c, nc⟩ := q
    simp only [replaceFixedPairs, pairStep_id ho hc]
    exact ih (fun r hr => h r (List.mem_cons_of_mem _ hr))

/-- One normal-case iteration of the correlator (source lines 816-848,
match2 branch with a non-trivial inner loop). -/
theorem gbfFnLoop_step2 {fuel : Nat} {varCC lastCalled : Option (Str × Str)}
    {d d1 : List (Str × Str)} {s : Str} {p1 n1 p2 n2 : Nat}
    {caller callee2 g2raw r2f stored : Str} {j : Nat}
    (hm1 : rxSearchL rfCallerM s = some (p1, n1, caller))
    (hm2 : rxSearchL rfCalleeM s = some (p2, n2, callee2, g2raw))
    (hdict : dictFind? caller d = none)
    (hinner : gbfInner fuel d (callee2 ++ lc ") " ++ pyRstrip g2raw) 0
        = .ok (d1, r2f, j))
    (hj : j ≠ 0)
    (hfind2 : dictFind? caller d1 = some stored)
    (hpos : p1 < p2 ∧ p1 + n1 < p2 + n2 ∧ p1 + n1 < p2) :
    gbfFnLoop (fuel + 1) varCC lastCalled d s
      = gbfFnLoop fuel (some (callee2, pyRstrip g2raw))
          (some (callee2, pyRstrip g2raw)) d1
          (s.take p1 ++ (lc "\\f + \\ft " ++ stored ++ lc "\\f*")
            ++ ((s.take p2).drop (p1 + n1)) ++ r2f ++ s.drop (p2 + n2)) := by
  simp only [gbfFnLoop, hm1, hm2, hdict, hinner, if_neg hj, hfind2, if_pos hpos]

/-- One repeat-reference iteration of the correlator (source lines 812-815):
the stored content is reused. -/
theorem gbfFnLoop_stepRepeat {fuel : Nat} {cc lc' : Str × Str}
    {d : List (Str × Str)} {s : Str} {p1 n1 : Nat} {caller stored : Str}
    (hm1 : rxSearchL rfCallerM s = some (p1, n1, caller))
    (hm2 : rxSearchL rfCalleeM s = none)
    (hdict : dictFind? caller d = some stored) :
    gbfFnLoop (fuel + 1) (some cc) (some lc') d s
      = gbfFnLoop fuel (some cc) (some cc) d
          (s.take p1 ++ (lc "\\f + \\ft " ++ stored ++ lc "\\f*")
            ++ s.drop (p1 + n1)) := by
  simp only [gbfFnLoop, hm1, hm2, hdict, Option.isSome_some, Bool.true_or,
    if_pos]

/-- The exit of the correlator loop: no caller token remains. -/
theorem gbfFnLoop_exit {fuel : Nat} {varCC lastCalled : Option (Str × Str)}
    {d : List (Str × Str)} {s : Str}
    (hm1 : rxSearchL rfCallerM s = none) :
    gbfFnLoop (fuel + 1) varCC lastCalled d s = .ok s := by
  simp only [gbfFnLoop, hm1]

theorem lazyCls_zero {α : Type} (cls : Char → Bool) (cont : Str → Option α)
    {u : Str} {a : α} (h : cont u = some a) :
    lazyCls cls cont u = some (0, a) := by
  cases u with
  | nil => simp [lazyCls, h]
  | cons ch u' => simp [lazyCls, h]

/-- Evaluation of a lazy star that walks a concrete middle `mid` (where the
continuation fails) and then succeeds on `rest`. -/
theorem lazyCls_eval {α : Type} (cls : Char → Bool) (cont : Str → Option α) :
    ∀ (mid rest : Str) (a : α),
      (∀ k, k < mid.length → cont ((mid ++ rest).drop k) = none) →
      (∀ ch ∈ mid, cls ch = true) →
      cont rest = some a →
      lazyCls cls cont (mid ++ rest) = some (mid.length, a) := by
  intro mid
  induction mid with
  | nil =>
    intro rest a _ _ hcont
    rw [List.nil_append]
    exact lazyCls_zero cls cont hcont
  | cons ch mid' ih =>
    intro rest a hmid hcls hcont
    have h0 := hmid 0 (by simp)
    rw [List.drop_zero, List.cons_append] at h0
    rw [List.cons_append]
    simp only [lazyCls]
    rw [h0, hcls ch (List.mem_cons_self _ _)]
    rw [ih rest a (fun k hk => by
        have hk1 := hmid (k + 1) (by simp only [List.length_cons]; omega)
        rwa [List.cons_append, List.drop_succ_cons] at hk1)
      (fun c hc => hcls c (List.mem_cons_of_mem _ hc)) hcont]
    simp

theorem lazyClsPlus_eval {α : Type} (cls : Char → Bool) (cont : Str → Option α)
    {ch : Char} {mid' rest : Str} {a : α}
    (hmid : ∀ k, k < (ch :: mid').length →
      cont (((ch :: mid') ++ rest).drop k) = none)
    (hcls : ∀ c ∈ ch :: mid', cls c = true)
    (hcont : cont rest = some a) :
    lazyClsPlus cls cont ((ch :: mid') ++ rest)
      = some ((ch :: mid').length, a) := by
  rw [List.cons_append]
  simp only [lazyClsPlus]
  rw [hcls ch (List.mem_cons_self _ _)]
  rw [lazyCls_eval cls cont mid' rest a (fun k hk => by
      have hk1 := hmid (k + 1) (by simp only [List.length_cons]; omega)
      rwa [List.cons_append, List.drop_succ_cons] at hk1)
    (fun c hc => hcls c (List.mem_cons_of_mem _ hc)) hcont]
  simp

theorem rfCallerM_at_rf1 (X : Str) :
    rfCallerM (lc "<RF>1<Rf>" ++ X) = some (9, lc "1") := by
  have h1 : (lc "<RF>").isPrefixOf (lc "<RF>1<Rf>" ++ X) = true := rfl
  have h2 : (lc "<Rf>").isPrefixOf (lc "<Rf>" ++ X) = true :=
    isPrefixOf_mpr rfl
  show (if (lc "<RF>").isPrefixOf (lc "<RF>1<Rf>" ++ X) = true then
      (if (lc "<Rf>").isPrefixOf (lc "<Rf>" ++ X) = true then
        some (9, ['1']) else none)
    else none) = some (9, lc "1")
  rw [h1, h2]
  rfl

theorem rfCalleeM_at_rf1 (X : Str) :
    rfCalleeM (lc "<RF>1<Rf>" ++ X) = none := rfl

theorem rfM3_at_rf1 (X : Str) :
    rfM3 (lc "<RF>1<Rf>" ++ X) = none := rfl

theorem rfCalleeM_at_rfc (X : Str) :
    rfCalleeM (lc "<RF>1) note one<Rf>" ++ X)
      = some (19, lc "1", lc "note one") := by
  have h2 : (lc "<Rf>").isPrefixOf (lc "<Rf>" ++ X) = true :=
    isPrefixOf_mpr rfl
  have hcont : (fun y => if (lc "<Rf>").isPrefixOf y then some 4 else none)
      (lc "<Rf>" ++ X) = (some 4 : Option Nat) := by
    show (if (lc "<Rf>").isPrefixOf (lc "<Rf>" ++ X) = true then
        some 4 else none) = some 4
    rw [h2]
    exact rfl
  have hmid : ∀ k, k < (lc "note one").length →
      (fun y => if (lc "<Rf>").isPrefixOf y then some 4 else none)
        ((lc "note one" ++ (lc "<Rf>" ++ X)).drop k) = none := by
    intro k hk
    have hk8 : k < 8 := hk
    interval_cases k <;> rfl
  have hcls : ∀ c ∈ lc "note one", notNL c = true := by decide
  have hlcp : lazyClsPlus notNL
      (fun y => if (lc "<Rf>").isPrefixOf y then some 4 else none)
      (lc "note one" ++ (lc "<Rf>" ++ X)) = some (8, 4) :=
    lazyClsPlus_eval notNL _ hmid hcls hcont
  have hT : rfTail (')' :: ' ' :: (lc "note one" ++ (lc "<Rf>" ++ X)))
      = some (14, lc "note one") := by
    show (match lazyClsPlus notNL
        (fun y => if (lc "<Rf>").isPrefixOf y then some 4 else none)
        (lc "note one" ++ (lc "<Rf>" ++ X)) with
      | none => none
      | some (k, t) =>
        some (2 + k + t, (lc "note one" ++ (lc "<Rf>" ++ X)).take k))
      = some (14, lc "note one")
    rw [hlcp]
    exact rfl
  show (match rfTail (')' :: ' ' :: (lc "note one" ++ (lc "<Rf>" ++ X))) with
    | some (n, g2) => some (4 + 1 + n, (['1'] : Str), g2)
    | none => none) = some (19, lc "1", lc "note one")
  rw [hT]
  exact rfl

/-- The callee regex fails at positions inside the caller token, whatever
follows. -/
theorem rfCalleeM_rf1_interior (X : Str) {k : Nat}
    (hk : k < (lc "<RF>1<Rf>").length) :
    rfCalleeM ((lc "<RF>1<Rf>" ++ X).drop k) = none := by
  have h9 : (lc "<RF>1<Rf>").length = 9 := rfl
  have hk9 : k < 9 := by omega
  interval_cases k
  · exact rfCalleeM_at_rf1 X
  · rfl
  · rfl
  · rfl
  · rfl
  · rfl
  · rfl
  · rfl
  · rfl

/-- The callee regex fails at every suffix of `"<RF>1<Rf>" ++ d` when `d` is
free of `'<'`. -/
theorem rfCalleeM_rf1_suffix_none {d : Str} (hd : '<' ∉ d) (k : Nat) :
    rfCalleeM ((lc "<RF>1<Rf>" ++ d).drop k) = none := by
  by_cases hk : k < (lc "<RF>1<Rf>").length
  · exact rfCalleeM_rf1_interior d hk
  · rw [List.drop_append_eq_append_drop,
      List.drop_eq_nil_of_le (by
        have h9 : (lc "<RF>1<Rf>").length = 9 := rfl
        omega),
      List.nil_append]
    exact rfCalleeM_not_pre (prefix_false_of_notMem hd _)

/-- The unnumbered-callee regex likewise fails at every suffix of
`"<RF>1<Rf>" ++ d`. -/
theorem rfM3_rf1_suffix_none {d : Str} (hd : '<' ∉ d) (k : Nat) :
    rfM3 ((lc "<RF>1<Rf>" ++ d).drop k) = none := by
  by_cases hk : k < 9
  · interval_cases k
    · exact rfM3_at_rf1 d
    · rfl
    · rfl
    · rfl
    · rfl
    · rfl
    · rfl
    · rfl
    · rfl
  · rw [List.drop_append_eq_append_drop,
      List.drop_eq_nil_of_le (by
        have h9 : (lc "<RF>1<Rf>").length = 9 := rfl
        omega),
      List.nil_append]
    exact rfM3_not_pre (prefix_false_of_notMem hd _)

/-- C4: a GBF verse string with a numbered caller `<RF>1<Rf>`, followed later
by the callee block `<RF>1) note one<Rf>`, followed by a second occurrence of
the caller, yields the same canonical footnote `\f + \ft note one\f*` at both
caller positions: the second occurrence reuses the content stored in the
correlation map. -/
theorem claim_C4_footnote_correlation (debug : Bool) {moduleName : Str}
    (hmod : moduleName ≠ lc "ASV") {fuel : Nat} (hfuel : 3 ≤ fuel)
    {a b c d : Str}
    (ha : ∀ ch ∈ a, ch ≠ '<' ∧ ch ≠ '>' ∧ ch ≠ '\n')
    (hb : ∀ ch ∈ b, ch ≠ '<' ∧ ch ≠ '>' ∧ ch ≠ '\n')
    (hc : ∀ ch ∈ c, ch ≠ '<' ∧ ch ≠ '>' ∧ ch ≠ '\n')
    (hd : ∀ ch ∈ d, ch ≠ '<' ∧ ch ≠ '>' ∧ ch ≠ '\n')
    (hbne : b ≠ []) :
    filterGBFVerseLine debug fuel moduleName
        (a ++ (lc "<RF>1<Rf>" ++ (b ++ (lc "<RF>1) note one<Rf>"
          ++ (c ++ (lc "<RF>1<Rf>" ++ d))))))
      = .ok (a ++ ((lc "\\f + \\ft " ++ lc "note one" ++ lc "\\f*")
          ++ (b ++ (c ++ ((lc "\\f + \\ft " ++ lc "note one" ++ lc "\\f*")
            ++ d))))) := by
  obtain ⟨f, rfl⟩ : ∃ f, fuel = f + 3 := ⟨fuel - 3, by omega⟩
  have haLT : '<' ∉ a := fun hm => (ha '<' hm).1 rfl
  have hbLT : '<' ∉ b := fun hm => (hb '<' hm).1 rfl
  have hcLT : '<' ∉ c := fun hm => (hc '<' hm).1 rfl
  have hdLT : '<' ∉ d := fun hm => (hd '<' hm).1 rfl
  have hb0 : 0 < b.length := List.length_pos.mpr hbne
  -- iteration 1: searches on the input
  have hm1 : rxSearchL rfCallerM
      (a ++ (lc "<RF>1<Rf>" ++ (b ++ (lc "<RF>1) note one<Rf>"
        ++ (c ++ (lc "<RF>1<Rf>" ++ d))))))
      = some (a.length, 9, lc "1") := by
    rw [rxSearchL_concat rfCallerM a _ (fun k hk =>
      rfCallerM_not_pre (head_prefix_false_in_left haLT hk))]
    rw [rxSearchL_some_zero _ _ _ (rfCallerM_at_rf1 _)]
    simp
  have hR1len : (lc "<RF>1<Rf>").length = 9 := rfl
  have hRClen : (lc "<RF>1) note one<Rf>").length = 19 := rfl
  have hm2 : rxSearchL rfCalleeM
      (a ++ (lc "<RF>1<Rf>" ++ (b ++ (lc "<RF>1) note one<Rf>"
        ++ (c ++ (lc "<RF>1<Rf>" ++ d))))))
      = some (a.length + (9 + b.length), 19, lc "1", lc "note one") := by
    rw [rxSearchL_concat rfCalleeM a _ (fun k hk =>
      rfCalleeM_not_pre (head_prefix_false_in_left haLT hk))]
    rw [rxSearchL_concat rfCalleeM (lc "<RF>1<Rf>") _ (fun k hk =>
      rfCalleeM_rf1_interior _ hk)]
    rw [rxSearchL_concat rfCalleeM b _ (fun k hk =>
      rfCalleeM_not_pre (head_prefix_false_in_left hbLT hk))]
    rw [rxSearchL_some_zero _ _ _ (rfCalleeM_at_rfc _)]
    simp [hR1len]
  -- the inner callee-splitting loop on the concrete text "1) note one"
  have e8 : rxSearchL m8M (lc "1) note one") = none := by decide
  have e9 : rxSearchL m9M (lc "1) note one") = some (0, 3, lc "1") := by decide
  have st1 : ∀ g : Nat, gbfInner (g + 1) [] (lc "1) note one") 0
      = gbfInner g [(lc "1", lc "note one")] [] 1 := by
    intro g
    simp only [gbfInner]
    rw [if_neg (show ¬(lc "1) note one" = ([] : Str)) from by decide)]
    rw [e8, e9]
    exact rfl
  have st2 : ∀ g : Nat, gbfInner (g + 1) [(lc "1", lc "note one")] [] 1
      = .ok ([(lc "1", lc "note one")], [], 1) := by
    intro g
    simp only [gbfInner]
    exact if_pos trivial
  have hinner : gbfInner (f + 1 + 1) [] (lc "1) note one") 0
      = .ok ([(lc "1", lc "note one")], [], 1) := (st1 (f + 1)).trans (st2 f)
  -- take/drop computations of the first splice
  have htk1 : (a ++ (lc "<RF>1<Rf>" ++ (b ++ (lc "<RF>1) note one<Rf>"
      ++ (c ++ (lc "<RF>1<Rf>" ++ d)))))).take a.length = a :=
    List.take_left _ _
  have htk2 : (a ++ (lc "<RF>1<Rf>" ++ (b ++ (lc "<RF>1) note one<Rf>"
      ++ (c ++ (lc "<RF>1<Rf>" ++ d)))))).take (a.length + (9 + b.length))
      = a ++ (lc "<RF>1<Rf>" ++ b) := by
    rw [List.take_append]
    rw [show (9 : Nat) + b.length = (lc "<RF>1<Rf>").length + b.length from by
      rw [hR1len]]
    rw [List.take_append]
    rw [show (b ++ (lc "<RF>1) note one<Rf>"
        ++ (c ++ (lc "<RF>1<Rf>" ++ d)))).take b.length = b from
      List.take_left _ _]
  have hmid1 : (a ++ (lc "<RF>1<Rf>" ++ b)).drop (a.length + 9) = b := by
    rw [show a.length + 9 = a.length + (lc "<RF>1<Rf>").length from by
      rw [hR1len]]
    rw [List.drop_append, List.drop_left]
  have hidx1 : a.length + (9 + b.length) + 19
      = a.length + ((lc "<RF>1<Rf>").length
        + (b.length + (lc "<RF>1) note one<Rf>").length)) := by
    rw [hR1len, hRClen]
    omega
  have hdr1 : (a ++ (lc "<RF>1<Rf>" ++ (b ++ (lc "<RF>1) note one<Rf>"
      ++ (c ++ (lc "<RF>1<Rf>" ++ d)))))).drop (a.length + (9 + b.length) + 19)
      = c ++ (lc "<RF>1<Rf>" ++ d) := by
    rw [hidx1]
    rw [List.drop_append, List.drop_append, List.drop_append, List.drop_left]
  -- chunk cleanliness
  have hF1 : ∀ ch ∈ lc "\\f + \\ft ", ch ≠ '<' ∧ ch ≠ '>' ∧ ch ≠ '\n' := by
    decide
  have hF2 : ∀ ch ∈ lc "note one", ch ≠ '<' ∧ ch ≠ '>' ∧ ch ≠ '\n' := by
    decide
  have hF3 : ∀ ch ∈ lc "\\f*", ch ≠ '<' ∧ ch ≠ '>' ∧ ch ≠ '\n' := by
    decide
  -- iteration 2: searches on the normalised intermediate buffer
  have hA2LT : '<' ∉ a ++ (lc "\\f + \\ft " ++ (lc "note one"
      ++ (lc "\\f*" ++ (b ++ c)))) := by
    intro hm
    rcases List.mem_append.mp hm with h | h2
    · exact (ha _ h).1 rfl
    rcases List.mem_append.mp h2 with h | h3
    · exact (hF1 _ h).1 rfl
    rcases List.mem_append.mp h3 with h | h4
    · exact (hF2 _ h).1 rfl
    rcases List.mem_append.mp h4 with h | h5
    · exact (hF3 _ h).1 rfl
    rcases List.mem_append.mp h5 with h | h
    · exact (hb _ h).1 rfl
    · exact (hc _ h).1 rfl
  have hs1assoc : a ++ (lc "\\f + \\ft " ++ (lc "note one" ++ (lc "\\f*"
        ++ (b ++ (c ++ (lc "<RF>1<Rf>" ++ d))))))
      = (a ++ (lc "\\f + \\ft " ++ (lc "note one" ++ (lc "\\f*"
          ++ (b ++ c))))) ++ (lc "<RF>1<Rf>" ++ d) := by
    simp [List.append_assoc]
  have hm1' : rxSearchL rfCallerM
      (a ++ (lc "\\f + \\ft " ++ (lc "note one" ++ (lc "\\f*"
        ++ (b ++ (c ++ (lc "<RF>1<Rf>" ++ d)))))))
      = some ((a ++ (lc "\\f + \\ft " ++ (lc "note one" ++ (lc "\\f*"
          ++ (b ++ c))))).length, 9, lc "1") := by
    rw [hs1assoc]
    rw [rxSearchL_concat rfCallerM _ _ (fun k hk =>
      rfCallerM_not_pre (head_prefix_false_in_left hA2LT hk))]
    rw [rxSearchL_some_zero _ _ _ (rfCallerM_at_rf1 _)]
    simp
  have hm2' : rxSearchL rfCalleeM
      (a ++ (lc "\\f + \\ft " ++ (lc "note one" ++ (lc "\\f*"
        ++ (b ++ (c ++ (lc "<RF>1<Rf>" ++ d))))))) = none := by
    rw [hs1assoc]
    rw [rxSearchL_concat rfCalleeM _ _ (fun k hk =>
      rfCalleeM_not_pre (head_prefix_false_in_left hA2LT hk))]
    rw [rxSearchL_none_of rfCalleeM _ (rfCalleeM_rf1_suffix_none hdLT)]
    rfl
  have htk1' : (a ++ (lc "\\f + \\ft " ++ (lc "note one" ++ (lc "\\f*"
      ++ (b ++ (c ++ (lc "<RF>1<Rf>" ++ d))))))).take
        (a ++ (lc "\\f + \\ft " ++ (lc "note one" ++ (lc "\\f*"
          ++ (b ++ c))))).length
      = a ++ (lc "\\f + \\ft " ++ (lc "note one" ++ (lc "\\f*"
          ++ (b ++ c)))) := by
    rw [hs1assoc]
    exact List.take_left _ _
  have hdr1' : (a ++ (lc "\\f + \\ft " ++ (lc "note one" ++ (lc "\\f*"
      ++ (b ++ (c ++ (lc "<RF>1<Rf>" ++ d))))))).drop
        ((a ++ (lc "\\f + \\ft " ++ (lc "note one" ++ (lc "\\f*"
          ++ (b ++ c))))).length + 9) = d := by
    rw [hs1assoc]
    rw [show (a ++ (lc "\\f + \\ft " ++ (lc "note one" ++ (lc "\\f*"
        ++ (b ++ c))))).length + 9
      = (a ++ (lc "\\f + \\ft " ++ (lc "note one" ++ (lc "\\f*"
        ++ (b ++ c))))).length + (lc "<RF>1<Rf>").length from by rw [hR1len]]
    rw [List.drop_append, List.drop_left]
  -- cleanliness of the final buffer
  have hS2 : ∀ ch ∈ a ++ (lc "\\f + \\ft " ++ (lc "note one" ++ (lc "\\f*"
      ++ (b ++ (c ++ (lc "\\f + \\ft " ++ (lc "note one"
        ++ (lc "\\f*" ++ d)))))))),
      ch ≠ '<' ∧ ch ≠ '>' ∧ ch ≠ '\n' := by
    intro ch hm
    rcases List.mem_append.mp hm with h | h2
    · exact ha _ h
    rcases List.mem_append.mp h2 with h | h3
    · exact hF1 _ h
    rcases List.mem_append.mp h3 with h | h4
    · exact hF2 _ h
    rcases List.mem_append.mp h4 with h | h5
    · exact hF3 _ h
    rcases List.mem_append.mp h5 with h | h6
    · exact hb _ h
    rcases List.mem_append.mp h6 with h | h7
    · exact hc _ h
    rcases List.mem_append.mp h7 with h | h8
    · exact hF1 _ h
    rcases List.mem_append.mp h8 with h | h9
    · exact hF2 _ h
    rcases List.mem_append.mp h9 with h | h
    · exact hF3 _ h
    · exact hd _ h
  have hS2LT : '<' ∉ a ++ (lc "\\f + \\ft " ++ (lc "note one" ++ (lc "\\f*"
      ++ (b ++ (c ++ (lc "\\f + \\ft " ++ (lc "note one"
        ++ (lc "\\f*" ++ d)))))))) := fun hm => (hS2 _ hm).1 rfl
  have hS2GT : '>' ∉ a ++ (lc "\\f + \\ft " ++ (lc "note one" ++ (lc "\\f*"
      ++ (b ++ (c ++ (lc "\\f + \\ft " ++ (lc "note one"
        ++ (lc "\\f*" ++ d)))))))) := fun hm => (hS2 _ hm).2.1 rfl
  have hS2NL : '\n' ∉ a ++ (lc "\\f + \\ft " ++ (lc "note one" ++ (lc "\\f*"
      ++ (b ++ (c ++ (lc "\\f + \\ft " ++ (lc "note one"
        ++ (lc "\\f*" ++ d)))))))) := fun hm => (hS2 _ hm).2.2 rfl
  have hm1r : rxSearchL rfCallerM
      (a ++ (lc "\\f + \\ft " ++ (lc "note one" ++ (lc "\\f*"
        ++ (b ++ (c ++ (lc "\\f + \\ft " ++ (lc "note one"
          ++ (lc "\\f*" ++ d))))))))) = none :=
    rxSearchL_none_of _ _ (fun k =>
      rfCallerM_not_pre (prefix_false_of_notMem hS2LT k))
  -- run the correlator loop
  have hrun : gbfFnLoop (f + 3) none none []
      (a ++ (lc "<RF>1<Rf>" ++ (b ++ (lc "<RF>1) note one<Rf>"
        ++ (c ++ (lc "<RF>1<Rf>" ++ d))))))
      = .ok (a ++ (lc "\\f + \\ft " ++ (lc "note one" ++ (lc "\\f*"
          ++ (b ++ (c ++ (lc "\\f + \\ft " ++ (lc "note one"
            ++ (lc "\\f*" ++ d))))))))) := by
    rw [show f + 3 = f + 1 + 1 + 1 from rfl]
    rw [gbfFnLoop_step2 hm1 hm2
      (rfl : dictFind? (lc "1") [] = none) hinner (by decide)
      (rfl : dictFind? (lc "1") [(lc "1", lc "note one")]
        = some (lc "note one"))
      ⟨by omega, by omega, by omega⟩]
    rw [htk1, htk2, hmid1, hdr1]
    simp only [List.append_assoc, List.append_nil, List.nil_append]
    rw [gbfFnLoop_stepRepeat hm1' hm2'
      (rfl : dictFind? (lc "1") [(lc "1", lc "note one")]
        = some (lc "note one"))]
    rw [htk1', hdr1']
    simp only [List.append_assoc]
    exact gbfFnLoop_exit hm1r
  -- identity of the post passes on the clean buffer
  have hpass1 : rxPassLoop rfAnyM
      (fun g => lc "\\f + \\ft " ++ g ++ lc "\\f*") (f + 3)
      (a ++ (lc "\\f + \\ft " ++ (lc "note one" ++ (lc "\\f*"
        ++ (b ++ (c ++ (lc "\\f + \\ft " ++ (lc "note one"
          ++ (lc "\\f*" ++ d)))))))))
      = .ok (a ++ (lc "\\f + \\ft " ++ (lc "note one" ++ (lc "\\f*"
          ++ (b ++ (c ++ (lc "\\f + \\ft " ++ (lc "note one"
            ++ (lc "\\f*" ++ d))))))))) :=
    rxPass_id _ _ (f + 2) _ (rxSearchL_none_of _ _ (fun k =>
      lazyMidL_not_pre (prefix_false_of_notMem hS2LT k)))
  have hpass2 : rxPassLoop wtM (fun _ => ([] : Str)) (f + 3)
      (a ++ (lc "\\f + \\ft " ++ (lc "note one" ++ (lc "\\f*"
        ++ (b ++ (c ++ (lc "\\f + \\ft " ++ (lc "note one"
          ++ (lc "\\f*" ++ d)))))))))
      = .ok (a ++ (lc "\\f + \\ft " ++ (lc "note one" ++ (lc "\\f*"
          ++ (b ++ (c ++ (lc "\\f + \\ft " ++ (lc "note one"
            ++ (lc "\\f*" ++ d))))))))) :=
    rxPass_id _ _ (f + 2) _ (rxSearchL_none_of _ _ (fun k =>
      lazyMidL_not_pre (prefix_false_of_notMem hS2LT k)))
  have hpass3 : rxPassLoop wh0M
      (fun g => lc "\\str H" ++ g ++ lc " \\str*") (f + 3)
      (a ++ (lc "\\f + \\ft " ++ (lc "note one" ++ (lc "\\f*"
        ++ (b ++ (c ++ (lc "\\f + \\ft " ++ (lc "note one"
          ++ (lc "\\f*" ++ d)))))))))
      = .ok (a ++ (lc "\\f + \\ft " ++ (lc "note one" ++ (lc "\\f*"
          ++ (b ++ (c ++ (lc "\\f + \\ft " ++ (lc "note one"
            ++ (lc "\\f*" ++ d))))))))) :=
    rxPass_id _ _ (f + 2) _ (rxSearchL_none_of _ _ (fun k =>
      wh0M_not_pre (prefix_false_of_notMem hS2LT k)))
  have hpass4 : rxPassLoop wgM
      (fun g => lc "\\str G" ++ g ++ lc " \\str*") (f + 3)
      (a ++ (lc "\\f + \\ft " ++ (lc "note one" ++ (lc "\\f*"
        ++ (b ++ (c ++ (lc "\\f + \\ft " ++ (lc "note one"
          ++ (lc "\\f*" ++ d)))))))))
      = .ok (a ++ (lc "\\f + \\ft " ++ (lc "note one" ++ (lc "\\f*"
          ++ (b ++ (c ++ (lc "\\f + \\ft " ++ (lc "note one"
            ++ (lc "\\f*" ++ d))))))))) :=
    rxPass_id _ _ (f + 2) _ (rxSearchL_none_of _ _ (fun k =>
      wgM_not_pre (prefix_false_of_notMem hS2LT k)))
  have hpairs : replaceFixedPairs (f + 3) gbfTable
      (a ++ (lc "\\f + \\ft " ++ (lc "note one" ++ (lc "\\f*"
        ++ (b ++ (c ++ (lc "\\f + \\ft " ++ (lc "note one"
          ++ (lc "\\f*" ++ d)))))))))
      = .ok (a ++ (lc "\\f + \\ft " ++ (lc "note one" ++ (lc "\\f*"
          ++ (b ++ (c ++ (lc "\\f + \\ft " ++ (lc "note one"
            ++ (lc "\\f*" ++ d))))))))) := by
    refine replaceFixedPairs_id ?_
    intro q hq
    fin_cases hq <;>
      exact ⟨pyFind?_eq_none_intro (fun j _ hocc =>
          no_occ_of_head_notMem hS2LT j hocc),
        pyFind?_eq_none_intro (fun j _ hocc =>
          no_occ_of_head_notMem hS2LT j hocc)⟩
  have hcm : pyReplaceAll (lc "<CM>") (lc "\\NL**\\p\\NL**")
      (a ++ (lc "\\f + \\ft " ++ (lc "note one" ++ (lc "\\f*"
        ++ (b ++ (c ++ (lc "\\f + \\ft " ++ (lc "note one"
          ++ (lc "\\f*" ++ d)))))))))
      = a ++ (lc "\\f + \\ft " ++ (lc "note one" ++ (lc "\\f*"
          ++ (b ++ (c ++ (lc "\\f + \\ft " ++ (lc "note one"
            ++ (lc "\\f*" ++ d)))))))) :=
    pyReplaceAll_id (pyFind?_eq_none_intro (fun j _ hocc =>
      no_occ_of_head_notMem hS2LT j hocc))
  have hfo : pyReplaceAll (lc "<Fo>") (lc "\\NL**")
      (a ++ (lc "\\f + \\ft " ++ (lc "note one" ++ (lc "\\f*"
        ++ (b ++ (c ++ (lc "\\f + \\ft " ++ (lc "note one"
          ++ (lc "\\f*" ++ d)))))))))
      = a ++ (lc "\\f + \\ft " ++ (lc "note one" ++ (lc "\\f*"
          ++ (b ++ (c ++ (lc "\\f + \\ft " ++ (lc "note one"
            ++ (lc "\\f*" ++ d)))))))) :=
    pyReplaceAll_id (pyFind?_eq_none_intro (fun j _ hocc =>
      no_occ_of_head_notMem hS2LT j hocc))
  have hnl : pyReplaceAll (lc "\n") (lc "\\NL**")
      (a ++ (lc "\\f + \\ft " ++ (lc "note one" ++ (lc "\\f*"
        ++ (b ++ (c ++ (lc "\\f + \\ft " ++ (lc "note one"
          ++ (lc "\\f*" ++ d)))))))))
      = a ++ (lc "\\f + \\ft " ++ (lc "note one" ++ (lc "\\f*"
          ++ (b ++ (c ++ (lc "\\f + \\ft " ++ (lc "note one"
            ++ (lc "\\f*" ++ d)))))))) :=
    pyReplaceAll_id (pyFind?_eq_none_intro (fun j _ hocc =>
      no_occ_of_head_notMem hS2NL j hocc))
  unfold filterGBFVerseLine
  rw [if_neg hmod, hrun]
  simp only [pyBind]
  rw [hpass1]
  simp only [pyBind]
  rw [hpass2]
  simp only [pyBind]
  rw [hpass3]
  simp only [pyBind]
  rw [hpass4]
  simp only [pyBind]
  rw [hpairs]
  simp only [pyBind]
  rw [hcm, hfo, hnl]
  rw [if_neg (by
    rintro ⟨h | h, _⟩
    · exact hS2LT h
    · exact hS2GT h)]
  exact rfl

/-- C4, witness: the input `x<RF>1<Rf>y<RF>1) note one<Rf>z<RF>1<Rf>w` for a
non-ASV module. -/
theorem claim_C4_witness :
    filterGBFVerseLine false 10 (lc "KJV")
        (lc "x" ++ (lc "<RF>1<Rf>" ++ (lc "y" ++ (lc "<RF>1) note one<Rf>"
          ++ (lc "z" ++ (lc "<RF>1<Rf>" ++ lc "w"))))))
      = .ok (lc "x" ++ ((lc "\\f + \\ft " ++ lc "note one" ++ lc "\\f*")
          ++ (lc "y" ++ (lc "z" ++ ((lc "\\f + \\ft " ++ lc "note one"
            ++ lc "\\f*") ++ lc "w"))))) :=
  claim_C4_footnote_correlation false (by decide) (by decide) (by decide)
    (by decide) (by decide) (by decide) (by decide)

/-- C2, witness: the well-formed input `<small>ab</small>`. -/
theorem claim_C2_witness :
    ∃ out : Str, filterTHMLVerseLine false 20 (lc "<small>ab</small>") = .ok out
      ∧ '<' ∉ out ∧ '>' ∉ out :=
  claim_C2_thml_no_brackets false
    ⟨[Seg.tok 2, Seg.chr 'a', Seg.chr 'b', Seg.tok 3],
      by intro sg hsg; fin_cases hsg <;> exact (by decide),
      by decide,
      fun q hq => by
        fin_cases hq <;> exact Bal_of_take (by decide) (by decide)⟩
    (by decide)

end BOS





